import Mathlib

/-!
Log analyzer (phase1/loganalyze): parser and metrics.

A shallow embedding of `parser/json.go`, `model/log_entry.go` and
`analyzer/metrics.go`, followed by theorems about them.

Conventions of the embedding.

* A Go `map[string]T` is an association list with pairwise distinct keys
  (`StrMap`); a lookup is `StrMap.get`, an assignment `m[k] = v` is `StrMap.set`.
  A nil map and an empty map are both the empty list: the code only reads them.
* A `float64` is the rational number it denotes (`ℚ`); a negative zero is not
  distinguished from zero. JSON cannot produce a NaN or an infinity, so every
  decoded number is a rational; the decoder rounds a literal to the nearest
  binary64 value.
* An `int64` is an `Int`; where the code can overflow the result is reduced
  with `wrapInt64`. Counters of type `int` that count slice elements are `Nat`:
  a slice has fewer than `2^63` elements, so they cannot overflow.
* The input is a sequence of bytes. `bufio.Scanner` (with `ScanLines`) and
  `json.Unmarshal` into a `map[string]any` are modelled after the Go standard
  library, since which lines the parser keeps depends on them.
* The standard library calls whose result the code only passes on are
  parameters, collected in `Env`: `time.Parse`, `fmt.Sprint`, and the value a
  float-to-integer conversion yields when the float is out of range (which the
  Go specification leaves to the implementation). `time.Now` is a parameter of
  the functions that call it.
* What `ParseJSON` prints is part of its result (`ParseResult.out`), and
  `Report` returns the lines it prints (`ReportLine`, with `ReportLine.text`).
  The arithmetic of `Report` is on non-negative `float64` values kept as
  `m * 2^p` (`Float64`), rounded to nearest, ties to even, after every
  operation.
-/

namespace LogAnalyze

/-! ## Machine integers -/

/-- The smallest `int64`. -/
def minInt64 : Int := -9223372036854775808

/-- The largest `int64`. -/
def maxInt64 : Int := 9223372036854775807

/-- Two's complement reduction of an integer to the `int64` range. -/
def wrapInt64 (x : Int) : Int := (x + 9223372036854775808) % 18446744073709551616 - 9223372036854775808

/-! ## `time.Time` -/

/-- A `time.Time`, reduced to what `IsZero` and the instant depend on: `sec` is
the number of seconds since January 1, year 1 00:00:00 UTC (what `t.sec()`
returns) and `nsec` the nanoseconds within that second (what `t.nsec()`
returns). The location and the monotonic reading are not modelled. -/
structure Time where
  sec : Int
  nsec : Int
deriving DecidableEq, Repr

namespace Time

/-- The zero value `time.Time{}`. -/
def zero : Time := ⟨0, 0⟩

/-- Go: `func (t Time) IsZero() bool { return t.sec() == 0 && t.nsec() == 0 }`. -/
def IsZero (t : Time) : Bool := t.sec == 0 && t.nsec == 0

/-- Seconds from January 1, year 1 to January 1, 1970 (`unixToInternal`). -/
def unixToInternal : Int := 62135596800

/-- Go: `unixTime(sec, nsec) = Time{uint64(nsec), sec + unixToInternal, Local}`. -/
def unixTime (sec nsec : Int) : Time := ⟨wrapInt64 (sec + unixToInternal), nsec⟩

/-- Go: `time.Unix(sec, nsec)`. Both arguments are `int64`; `/` truncates. -/
def Unix (sec nsec : Int) : Time :=
  if nsec < 0 ∨ nsec ≥ 1000000000 then
    let n := Int.tdiv nsec 1000000000
    let sec1 := wrapInt64 (sec + n)
    let nsec1 := wrapInt64 (nsec - wrapInt64 (n * 1000000000))
    if nsec1 < 0 then
      unixTime (wrapInt64 (sec1 - 1)) (wrapInt64 (nsec1 + 1000000000))
    else
      unixTime sec1 nsec1
  else
    unixTime sec nsec

/-- Go: `time.UnixMilli(msec) = Unix(msec/1e3, (msec%1e3)*1e6)`. -/
def UnixMilli (msec : Int) : Time :=
  Unix (Int.tdiv msec 1000) (wrapInt64 (Int.tmod msec 1000 * 1000000))

/-- The instant of a `Time` as nanoseconds since the Unix epoch, as an
unbounded integer. -/
def unixNano (t : Time) : Int := (t.sec - unixToInternal) * 1000000000 + t.nsec

/-- The `Time` whose instant is `ns` nanoseconds after the Unix epoch, with the
nanosecond field normalised to `[0, 10^9)`. -/
def ofUnixNano (ns : Int) : Time := ⟨ns / 1000000000 + unixToInternal, ns % 1000000000⟩

end Time

/-! ## Maps with string keys -/

/-- A Go `map[string]α`: an association list whose keys are pairwise distinct. -/
abbrev StrMap (α : Type) := List (String × α)

namespace StrMap

/-- Go: `v, ok := m[k]`. -/
def get {α : Type} : StrMap α → String → Option α
  | [], _ => none
  | (k1, v) :: rest, k => if k1 = k then some v else get rest k

/-- Go: `m[k] = v`. An existing key keeps its place, a new one is added. -/
def set {α : Type} : StrMap α → String → α → StrMap α
  | [], k, v => [(k, v)]
  | (k1, v1) :: rest, k, v => if k1 = k then (k, v) :: rest else (k1, v1) :: set rest k v

/-- The keys of the map. -/
def keys {α : Type} (m : StrMap α) : List String := m.map Prod.fst

/-- Go: `len(m)`. -/
def len {α : Type} (m : StrMap α) : Nat := m.length

end StrMap

/-! ## Dynamic values -/

/-- A Go value of type `any`. The first six constructors are what
`encoding/json` stores in an `any`; `int` and `int64` are the two further
dynamic types `toInt64` tests for; `other` is a value of any other type. -/
inductive Value where
  | nil
  | bool (b : Bool)
  | float64 (f : ℚ)
  | string (s : String)
  | slice (xs : List Value)
  | map (m : List (String × Value))
  | int (i : Int)
  | int64 (i : Int)
  | other (tag : Nat)

/-- A `map[string]any`: one decoded JSON line. -/
abbrev RawRecord := StrMap Value

/-- The standard library behaviour the parser is parametric in. -/
structure Env where
  /-- Go: `time.Parse(layout, value)`; `none` when it returns an error. -/
  timeParse : String → String → Option Time
  /-- Go: `fmt.Sprint(v)` for a value that is neither nil nor a string. -/
  sprint : Value → String
  /-- What `int64(f)` yields for a float whose truncation is no `int64`. -/
  int64OutOfRange : ℚ → Int

/-! ## `model.LogEntry` -/

/-- Go: `model.LogEntry`. -/
structure LogEntry where
  Timestamp : Time
  Level : String
  Source : String
  UserID : String
  Action : String
  Duration : Int
  Message : String
  Metadata : RawRecord

/-! ## `parser`: coercions -/

/-- Go: the conversion `int64(t)` of a `float64`: the fraction is discarded
(truncation towards zero); out of range the result is implementation
dependent. -/
def int64OfFloat64 (E : Env) (t : ℚ) : Int :=
  let z : Int := if 0 ≤ t then Rat.floor t else -Rat.floor (-t)
  if minInt64 ≤ z ∧ z ≤ maxInt64 then z else wrapInt64 (E.int64OutOfRange t)

/-- Go: `time.RFC3339`. -/
def RFC3339 : String := "2006-01-02T15:04:05Z07:00"

/-- Go: `time.RFC3339Nano`. -/
def RFC3339Nano : String := "2006-01-02T15:04:05.999999999Z07:00"

/-- The layouts `parseTime` tries, in order (json.go:134-139). -/
def layouts : List String :=
  [RFC3339, RFC3339Nano, "2006-01-02 15:04:05", "2006-01-02T15:04:05Z07:00"]

/-- The loop of json.go:134-143: the first layout that parses wins. -/
def parseLayouts (E : Env) (t : String) : List String → Option Time
  | [] => none
  | layout :: rest =>
    match E.timeParse layout t with
    | some parsed => some parsed
    | none => parseLayouts E t rest

/-- Go: `parseTime` (json.go:130-153). -/
def parseTime (E : Env) (v : Value) : Time :=
  match v with
  | .string t =>
    match parseLayouts E t layouts with
    | some parsed => parsed
    | none => Time.zero
  | .float64 t =>
    if t > 1000000000000 then
      Time.UnixMilli (int64OfFloat64 E t)
    else
      Time.Unix (int64OfFloat64 E t) 0
  | _ => Time.zero

/-- Go: `toString` (json.go:157-167). -/
def toString (E : Env) (v : Value) : String :=
  match v with
  | .nil => ""
  | .string t => t
  | _ => E.sprint v

/-- Go: `toInt64` (json.go:170-181). -/
def toInt64 (E : Env) (v : Value) : Int :=
  match v with
  | .float64 t => int64OfFloat64 E t
  | .int t => t
  | .int64 t => t
  | _ => 0

/-! ## `parser`: `rawToEntry` -/

/-- The probing loops of `rawToEntry`: the value of the first key of the list
that is present in `raw`, after which the loop breaks. -/
def firstPresent (raw : RawRecord) : List String → Option Value
  | [] => none
  | key :: rest =>
    match raw.get key with
    | some v => some v
    | none => firstPresent raw rest

/-- The candidate keys of the timestamp (json.go:83). -/
def timestampKeys : List String := ["timestamp", "time", "@timestamp", "ts"]

/-- The candidate keys of the level (json.go:95). -/
def levelKeys : List String := ["level", "lvl", "severity"]

/-- The candidate keys of the message (json.go:103). -/
def messageKeys : List String := ["message", "msg", "log"]

/-- Go: `rawToEntry` (json.go:76-126). `now` is what `time.Now()` returns if it
is called. The returned pointer is never nil. -/
def rawToEntry (E : Env) (now : Time) (raw : RawRecord) : LogEntry :=
  let ts0 : Time :=
    match firstPresent raw timestampKeys with
    | some v => parseTime E v
    | none => Time.zero
  let ts : Time := if ts0.IsZero then now else ts0
  let level : String :=
    match firstPresent raw levelKeys with
    | some v => toString E v
    | none => ""
  let message : String :=
    match firstPresent raw messageKeys with
    | some v => toString E v
    | none => ""
  let userID : String :=
    match raw.get "user_id" with
    | some v => toString E v
    | none => ""
  let action : String :=
    match raw.get "action" with
    | some v => toString E v
    | none => ""
  let source : String :=
    match raw.get "source" with
    | some v => toString E v
    | none => ""
  let duration : Int :=
    match raw.get "duration_ms" with
    | some v => toInt64 E v
    | none => 0
  { Timestamp := ts, Level := level, Source := source, UserID := userID,
    Action := action, Duration := duration, Message := message, Metadata := raw }

/-! ## `analyzer`: `Analyze` -/

/-- Go: `analyzer.Metrics`. -/
structure Metrics where
  Total : Nat
  ByLevel : StrMap Nat
  ByAction : StrMap Nat
  BySource : StrMap Nat
  UserSet : StrMap Unit
  Errors : Nat

/-- Go: `m[k]++` on a `map[string]int`: a missing key reads as 0. -/
def incr (m : StrMap Nat) (k : String) : StrMap Nat :=
  m.set k ((m.get k).getD 0 + 1)

/-- The body of the loop of `Analyze` (metrics.go:33-60). -/
def analyzeStep (m : Metrics) (e : LogEntry) : Metrics :=
  let m1 := { m with Total := m.Total + 1 }
  let m2 := if e.Level ≠ "" then { m1 with ByLevel := incr m1.ByLevel e.Level } else m1
  let m3 := if e.Action ≠ "" then { m2 with ByAction := incr m2.ByAction e.Action } else m2
  let m4 := if e.Source ≠ "" then { m3 with BySource := incr m3.BySource e.Source } else m3
  let m5 := if e.UserID ≠ "" then { m4 with UserSet := m4.UserSet.set e.UserID () } else m4
  if e.Level = "error" ∨ e.Level = "ERROR" then { m5 with Errors := m5.Errors + 1 } else m5

/-- The `Metrics` value `Analyze` starts from (metrics.go:25-30). -/
def Metrics.empty : Metrics :=
  { Total := 0, ByLevel := [], ByAction := [], BySource := [], UserSet := [], Errors := 0 }

/-- Go: `Analyze` (metrics.go:23-63). -/
def Analyze (entries : List LogEntry) : Metrics :=
  entries.foldl analyzeStep Metrics.empty

/-! ## `encoding/json`: `json.Unmarshal` into a `map[string]any`

The decoder follows the byte-at-a-time scanner of `encoding/json`
(`scanner.go`): one step function per scanner state and a stack of open
arrays and objects. The values are built during the same pass. -/

/-- A sequence of bytes. -/
abbrev Bytes := List UInt8

/-- The errors `json.Unmarshal` returns. -/
inductive JsonError where
  /-- A `*json.SyntaxError`: the text is not one JSON value. -/
  | syntaxError
  /-- A `*json.UnmarshalTypeError` whose `Value` field is `value`. -/
  | unmarshalTypeError (value : String)
deriving DecidableEq, Repr

/-- Go: `utf8.DecodeRune`: the first rune of `p` and its width in bytes; an
invalid or short encoding gives `(U+FFFD, 1)`. -/
def decodeRune (p : Bytes) : Nat × Nat :=
  let cont (b : UInt8) : Bool := 0x80 ≤ b && b ≤ 0xBF
  match p with
  | [] => (0xFFFD, 0)
  | p0 :: rest =>
    if p0 < 0x80 then (p0.toNat, 1)
    else if p0 < 0xC2 ∨ 0xF4 < p0 then (0xFFFD, 1)
    else
      let size : Nat := if p0 < 0xE0 then 2 else if p0 < 0xF0 then 3 else 4
      let lo : UInt8 := if p0 = 0xE0 then 0xA0 else if p0 = 0xF0 then 0x90 else 0x80
      let hi : UInt8 := if p0 = 0xED then 0x9F else if p0 = 0xF4 then 0x8F else 0xBF
      if rest.length + 1 < size then (0xFFFD, 1)
      else
        match rest with
        | [] => (0xFFFD, 1)
        | b1 :: rest1 =>
          if b1 < lo ∨ hi < b1 then (0xFFFD, 1)
          else if size = 2 then ((p0.toNat % 32) * 64 + b1.toNat % 64, 2)
          else
            match rest1 with
            | [] => (0xFFFD, 1)
            | b2 :: rest2 =>
              if !cont b2 then (0xFFFD, 1)
              else if size = 3 then
                ((p0.toNat % 16) * 4096 + (b1.toNat % 64) * 64 + b2.toNat % 64, 3)
              else
                match rest2 with
                | [] => (0xFFFD, 1)
                | b3 :: _ =>
                  if !cont b3 then (0xFFFD, 1)
                  else ((p0.toNat % 8) * 262144 + (b1.toNat % 64) * 4096
                        + (b2.toNat % 64) * 64 + b3.toNat % 64, 4)

/-- The value of a hexadecimal digit, if the byte is one. -/
def hexDigit (c : UInt8) : Option Nat :=
  if 0x30 ≤ c ∧ c ≤ 0x39 then some (c.toNat - 0x30)
  else if 0x61 ≤ c ∧ c ≤ 0x66 then some (c.toNat - 0x61 + 10)
  else if 0x41 ≤ c ∧ c ≤ 0x46 then some (c.toNat - 0x41 + 10)
  else none

/-- Go: `getu4`: the code unit of a leading `\uXXXX`, if `s` starts with one. -/
def getu4 (s : Bytes) : Option Nat :=
  match s with
  | 0x5C :: 0x75 :: a :: b :: c :: d :: _ =>
    match hexDigit a, hexDigit b, hexDigit c, hexDigit d with
    | some x, some y, some z, some w => some (x * 4096 + y * 256 + z * 16 + w)
    | _, _, _, _ => none
  | _ => none

/-- Go: `utf16.IsSurrogate`. -/
def isSurrogate (r : Nat) : Bool := 0xD800 ≤ r && r < 0xE000

/-- Go: `utf16.DecodeRune`: the code point of a surrogate pair, U+FFFD when
`r1`, `r2` is not a high surrogate followed by a low one. -/
def decodeSurrogates (r1 r2 : Nat) : Nat :=
  if 0xD800 ≤ r1 ∧ r1 < 0xDC00 ∧ 0xDC00 ≤ r2 ∧ r2 < 0xE000 then
    (r1 - 0xD800) * 1024 + (r2 - 0xDC00) + 0x10000
  else 0xFFFD

/-- The loop of Go's `unquoteBytes` over the bytes between the quotes of a
string literal; `fuel` bounds the number of iterations (every iteration
consumes a byte, so the length of `s` is enough). `none` when the literal is
malformed. -/
def unquoteLoop : Nat → Bytes → List Char → Option (List Char)
  | 0, _, acc => some acc.reverse
  | fuel + 1, s, acc =>
    match s with
    | [] => some acc.reverse
    | c :: rest =>
      if c = 0x5C then
        match rest with
        | [] => none
        | e :: rest1 =>
          if e = 0x22 ∨ e = 0x5C ∨ e = 0x2F ∨ e = 0x27 then
            unquoteLoop fuel rest1 (Char.ofNat e.toNat :: acc)
          else if e = 0x62 then unquoteLoop fuel rest1 (Char.ofNat 0x08 :: acc)
          else if e = 0x66 then unquoteLoop fuel rest1 (Char.ofNat 0x0C :: acc)
          else if e = 0x6E then unquoteLoop fuel rest1 (Char.ofNat 0x0A :: acc)
          else if e = 0x72 then unquoteLoop fuel rest1 (Char.ofNat 0x0D :: acc)
          else if e = 0x74 then unquoteLoop fuel rest1 (Char.ofNat 0x09 :: acc)
          else if e = 0x75 then
            match getu4 s with
            | none => none
            | some rr =>
              let after := s.drop 6
              if isSurrogate rr then
                match getu4 after with
                | some rr1 =>
                  if decodeSurrogates rr rr1 ≠ 0xFFFD then
                    unquoteLoop fuel (after.drop 6) (Char.ofNat (decodeSurrogates rr rr1) :: acc)
                  else unquoteLoop fuel after (Char.ofNat 0xFFFD :: acc)
                | none => unquoteLoop fuel after (Char.ofNat 0xFFFD :: acc)
              else unquoteLoop fuel after (Char.ofNat rr :: acc)
          else none
      else if c = 0x22 ∨ c < 0x20 then none
      else if c < 0x80 then unquoteLoop fuel rest (Char.ofNat c.toNat :: acc)
      else
        let d := decodeRune s
        unquoteLoop fuel (s.drop d.2) (Char.ofNat d.1 :: acc)

/-- Go: `unquote`, applied to the bytes between the quotes of a literal. -/
def unquote (s : Bytes) : Option String :=
  (unquoteLoop s.length s []).map String.mk

/-- Whether the byte is a decimal digit. -/
def isDigit (c : UInt8) : Bool := 0x30 ≤ c && c ≤ 0x39

/-- The number a run of decimal digits denotes. -/
def digitsValue (ds : Bytes) : Nat :=
  ds.foldl (fun n d => n * 10 + (d.toNat - 0x30)) 0

/-- A JSON number literal `-? digits (. digits)? ((e|E) (+|-)? digits)?` read
as a decimal: its value is `mant * 10 ^ exp`, negated when `negative`. -/
structure Decimal where
  negative : Bool
  mant : Nat
  exp : Int

/-- The decimal a JSON number literal denotes. -/
def parseDecimal (s : Bytes) : Decimal :=
  let negative := s.head? = some 0x2D
  let s1 := if negative then s.drop 1 else s
  let intPart := s1.takeWhile isDigit
  let s2 := s1.dropWhile isDigit
  let hasFrac := s2.head? = some 0x2E
  let fracPart := if hasFrac then (s2.drop 1).takeWhile isDigit else []
  let s3 := if hasFrac then (s2.drop 1).dropWhile isDigit else s2
  let s4 := s3.drop 1
  let expNegative := s4.head? = some 0x2D
  let expDigits := if s4.head? = some 0x2D ∨ s4.head? = some 0x2B then s4.drop 1 else s4
  let e : Int := if expNegative then -(digitsValue expDigits : Int) else digitsValue expDigits
  { negative := negative, mant := digitsValue (intPart ++ fracPart),
    exp := e - (fracPart.length : Int) }

/-- The quotient `n / d` rounded to the nearest integer, ties to even. -/
def roundHalfEven (n d : Nat) : Nat :=
  let f := n / d
  let r := n % d
  if 2 * r < d then f
  else if d < 2 * r then f + 1
  else if f % 2 = 0 then f else f + 1

/-- The position of the highest set bit of `n` (0 for `n < 2`), by halving;
`fuel` bounds the number of halvings, and `n` itself is enough. -/
def log2Floor : Nat → Nat → Nat
  | 0, _ => 0
  | fuel + 1, n => if n < 2 then 0 else log2Floor fuel (n / 2) + 1

/-- The binary64 number nearest to the positive rational `num / den` (ties to
even), as a significand `m < 2^53 + 1` and an exponent `p ≥ -1074` with value
`m * 2^p`; `none` when the nearest value is infinite. -/
def roundBinary64 (num den : Nat) : Option (Nat × Int) :=
  if num = 0 then some (0, 0)
  else
    let e0 : Int := (log2Floor num num : Int) - (log2Floor den den : Int)
    let atLeast : Bool :=
      if 0 ≤ e0 then decide (2 ^ e0.toNat * den ≤ num) else decide (den ≤ num * 2 ^ (-e0).toNat)
    let e2 : Int := if atLeast then e0 else e0 - 1
    let p : Int := max (e2 - 52) (-1074)
    let m : Nat :=
      if 0 ≤ p then roundHalfEven num (den * 2 ^ p.toNat)
      else roundHalfEven (num * 2 ^ (-p).toNat) den
    if 0 ≤ p ∧ 2 ^ 1024 ≤ m * 2 ^ p.toNat then none else some (m, p)

/-- The rational `m * 2^p`, negated when `negative`. A negative zero is not
distinguished from zero. -/
def float64Value (negative : Bool) (m : Nat) (p : Int) : ℚ :=
  if negative then -((m : ℚ) * (2 : ℚ) ^ p) else (m : ℚ) * (2 : ℚ) ^ p

/-- Go: `d.convertNumber(s)`, which is `strconv.ParseFloat(s, 64)`: the
`float64` nearest to the literal; a literal too large for a `float64` is an
`UnmarshalTypeError`. -/
def convertNumber (s : Bytes) : Except JsonError ℚ :=
  let d := parseDecimal s
  let num : Nat := if 0 ≤ d.exp then d.mant * 10 ^ d.exp.toNat else d.mant
  let den : Nat := if 0 ≤ d.exp then 1 else 10 ^ (-d.exp).toNat
  match roundBinary64 num den with
  | some (m, p) => .ok (float64Value d.negative m p)
  | none =>
    .error (.unmarshalTypeError ("number " ++ String.mk (s.map fun b => Char.ofNat b.toNat)))

/-- The states of the scanner (the step functions of `scanner.go`). The states
`stateT` ... `stateNul` are `literal rest v`: `rest` is what is left of the
word and `v` the value it denotes. -/
inductive Step where
  | beginValueOrEmpty
  | beginValue
  | beginStringOrEmpty
  | beginString
  | endValue
  | endTop
  | inString
  | inStringEsc
  | inStringEscU (seen : Nat)
  | neg
  | zero
  | one
  | dot
  | dot0
  | exp
  | expSign
  | exp0
  | literal (rest : Bytes) (v : Value)
  | error

/-- An open array or object (an entry of the scanner's `parseState`), with
what has been decoded of it. -/
inductive Frame where
  /-- Go: `parseArrayValue`; the elements read so far, last first. -/
  | array (elems : List Value)
  /-- Go: `parseObjectKey`; `key` is the key once it has been read. -/
  | objectKey (m : RawRecord) (key : Option String)
  /-- Go: `parseObjectValue`; the value of `key` is being read or has been
  stored in `m`. -/
  | objectValue (m : RawRecord) (key : String)

/-- The state of the decoder. -/
structure Decoder where
  step : Step
  stack : List Frame
  /-- The bytes of the string or number being read, last first. -/
  tok : Bytes
  /-- The top-level value, once complete. -/
  result : Option Value
  /-- Go: `d.savedError`. -/
  saved : Option JsonError

namespace Decoder

/-- Go: `maxNestingDepth`. -/
def maxNestingDepth : Nat := 10000

/-- The decoder before the first byte. -/
def init : Decoder :=
  { step := .beginValue, stack := [], tok := [], result := none, saved := none }

/-- A syntax error. -/
def fail (d : Decoder) : Decoder := { d with step := .error }

/-- A complete value is stored in the innermost open container, or is the
top-level value. -/
def emit (d : Decoder) (v : Value) : Decoder :=
  match d.stack with
  | [] => { d with result := some v, step := .endValue, tok := [] }
  | .array elems :: rest =>
    { d with stack := .array (v :: elems) :: rest, step := .endValue, tok := [] }
  | .objectValue m key :: rest =>
    { d with stack := .objectValue (m.set key v) key :: rest, step := .endValue, tok := [] }
  | .objectKey _ _ :: _ => d.fail

/-- The closing quote of a string: an object key is kept in its frame, any
other string is a value. -/
def endString (d : Decoder) : Decoder :=
  match unquote d.tok.reverse with
  | none => d.fail
  | some s =>
    match d.stack with
    | .objectKey m none :: rest =>
      { d with stack := .objectKey m (some s) :: rest, step := .endValue, tok := [] }
    | _ => d.emit (.string s)

/-- The end of a number (Go: `literalInterface`): a number that does not fit
is stored as nil and the first such error is saved. -/
def endNumber (d : Decoder) : Decoder :=
  match convertNumber d.tok.reverse with
  | .ok f => d.emit (.float64 f)
  | .error err =>
    match d.saved with
    | none => { d.emit .nil with saved := some err }
    | some _ => d.emit .nil

/-- Go: `pushParseState`. -/
def push (d : Decoder) (f : Frame) (next : Step) : Decoder :=
  if d.stack.length + 1 ≤ maxNestingDepth then { d with stack := f :: d.stack, step := next }
  else d.fail

/-- Go: `popParseState`, after which the closed array or object is a complete
value. -/
def pop (d : Decoder) : Decoder :=
  match d.stack with
  | [] => d.fail
  | .array elems :: rest => emit { d with stack := rest } (.slice elems.reverse)
  | .objectKey m _ :: rest => emit { d with stack := rest } (.map m)
  | .objectValue m _ :: rest => emit { d with stack := rest } (.map m)

end Decoder

/-- Go: `isSpace`. -/
def isSpace (c : UInt8) : Bool := c = 0x20 || c = 0x09 || c = 0x0D || c = 0x0A

/-- Go: `stateEndTop`: after the top-level value only white space may follow. -/
def stateEndTop (d : Decoder) (c : UInt8) : Decoder :=
  if isSpace c then { d with step := .endTop } else d.fail

/-- Go: `stateEndValue`: the byte after a complete value. -/
def stateEndValue (d : Decoder) (c : UInt8) : Decoder :=
  match d.stack with
  | [] => stateEndTop d c
  | frame :: rest =>
    if isSpace c then { d with step := .endValue }
    else
      match frame with
      | .objectKey m (some key) =>
        if c = 0x3A then { d with stack := .objectValue m key :: rest, step := .beginValue }
        else d.fail
      | .objectKey _ none => d.fail
      | .objectValue m _ =>
        if c = 0x2C then { d with stack := .objectKey m none :: rest, step := .beginString }
        else if c = 0x7D then d.pop
        else d.fail
      | .array _ =>
        if c = 0x2C then { d with step := .beginValue }
        else if c = 0x5D then d.pop
        else d.fail

/-- The end of a number at a byte that cannot continue it: the number is
stored and the byte is read by `stateEndValue`. -/
def endNumberAt (d : Decoder) (c : UInt8) : Decoder :=
  let d1 := d.endNumber
  match d1.step with
  | .error => d1
  | _ => stateEndValue d1 c

/-- Go: `stateBeginString`. -/
def stateBeginString (d : Decoder) (c : UInt8) : Decoder :=
  if isSpace c then d
  else if c = 0x22 then { d with step := .inString, tok := [] }
  else d.fail

/-- Go: `stateBeginValue`. -/
def stateBeginValue (d : Decoder) (c : UInt8) : Decoder :=
  if isSpace c then d
  else if c = 0x7B then d.push (.objectKey [] none) .beginStringOrEmpty
  else if c = 0x5B then d.push (.array []) .beginValueOrEmpty
  else if c = 0x22 then { d with step := .inString, tok := [] }
  else if c = 0x2D then { d with step := .neg, tok := [c] }
  else if c = 0x30 then { d with step := .zero, tok := [c] }
  else if c = 0x74 then { d with step := .literal [0x72, 0x75, 0x65] (.bool true) }
  else if c = 0x66 then { d with step := .literal [0x61, 0x6C, 0x73, 0x65] (.bool false) }
  else if c = 0x6E then { d with step := .literal [0x75, 0x6C, 0x6C] .nil }
  else if 0x31 ≤ c ∧ c ≤ 0x39 then { d with step := .one, tok := [c] }
  else d.fail

/-- Go: `stateBeginValueOrEmpty`. -/
def stateBeginValueOrEmpty (d : Decoder) (c : UInt8) : Decoder :=
  if isSpace c then d
  else if c = 0x5D then stateEndValue d c
  else stateBeginValue d c

/-- Go: `stateBeginStringOrEmpty`. -/
def stateBeginStringOrEmpty (d : Decoder) (c : UInt8) : Decoder :=
  if isSpace c then d
  else if c = 0x7D then d.pop
  else stateBeginString d c

/-- Go: `stateInString`. -/
def stateInString (d : Decoder) (c : UInt8) : Decoder :=
  if c = 0x22 then d.endString
  else if c = 0x5C then { d with step := .inStringEsc, tok := c :: d.tok }
  else if c < 0x20 then d.fail
  else { d with tok := c :: d.tok }

/-- Go: `stateInStringEsc`. -/
def stateInStringEsc (d : Decoder) (c : UInt8) : Decoder :=
  if c = 0x62 ∨ c = 0x66 ∨ c = 0x6E ∨ c = 0x72 ∨ c = 0x74 ∨ c = 0x5C ∨ c = 0x2F ∨ c = 0x22 then
    { d with step := .inString, tok := c :: d.tok }
  else if c = 0x75 then { d with step := .inStringEscU 0, tok := c :: d.tok }
  else d.fail

/-- Go: `stateInStringEscU`, `stateInStringEscU1`, `...U12`, `...U123`. -/
def stateInStringEscU (d : Decoder) (seen : Nat) (c : UInt8) : Decoder :=
  match hexDigit c with
  | none => d.fail
  | some _ =>
    if seen < 3 then { d with step := .inStringEscU (seen + 1), tok := c :: d.tok }
    else { d with step := .inString, tok := c :: d.tok }

/-- Go: `stateNeg`. -/
def stateNeg (d : Decoder) (c : UInt8) : Decoder :=
  if c = 0x30 then { d with step := .zero, tok := c :: d.tok }
  else if 0x31 ≤ c ∧ c ≤ 0x39 then { d with step := .one, tok := c :: d.tok }
  else d.fail

/-- Go: `stateE0`. -/
def stateE0 (d : Decoder) (c : UInt8) : Decoder :=
  if isDigit c then { d with tok := c :: d.tok } else endNumberAt d c

/-- Go: `stateESign`. -/
def stateESign (d : Decoder) (c : UInt8) : Decoder :=
  if isDigit c then { d with step := .exp0, tok := c :: d.tok } else d.fail

/-- Go: `stateE`. -/
def stateE (d : Decoder) (c : UInt8) : Decoder :=
  if c = 0x2B ∨ c = 0x2D then { d with step := .expSign, tok := c :: d.tok }
  else stateESign d c

/-- Go: `stateDot0`. -/
def stateDot0 (d : Decoder) (c : UInt8) : Decoder :=
  if isDigit c then { d with tok := c :: d.tok }
  else if c = 0x65 ∨ c = 0x45 then { d with step := .exp, tok := c :: d.tok }
  else endNumberAt d c

/-- Go: `stateDot`. -/
def stateDot (d : Decoder) (c : UInt8) : Decoder :=
  if isDigit c then { d with step := .dot0, tok := c :: d.tok } else d.fail

/-- Go: `state0`. -/
def state0 (d : Decoder) (c : UInt8) : Decoder :=
  if c = 0x2E then { d with step := .dot, tok := c :: d.tok }
  else if c = 0x65 ∨ c = 0x45 then { d with step := .exp, tok := c :: d.tok }
  else endNumberAt d c

/-- Go: `state1`. -/
def state1 (d : Decoder) (c : UInt8) : Decoder :=
  if isDigit c then { d with step := .one, tok := c :: d.tok } else state0 d c

/-- The states `stateT` ... `stateNul`: the next byte of the word. -/
def stateLiteral (d : Decoder) (rest : Bytes) (v : Value) (c : UInt8) : Decoder :=
  match rest with
  | [] => d.fail
  | b :: more =>
    if c = b then
      match more with
      | [] => d.emit v
      | _ :: _ => { d with step := .literal more v }
    else d.fail

/-- One byte of input: Go's `s.step(s, c)`. -/
def feed (d : Decoder) (c : UInt8) : Decoder :=
  match d.step with
  | .beginValueOrEmpty => stateBeginValueOrEmpty d c
  | .beginValue => stateBeginValue d c
  | .beginStringOrEmpty => stateBeginStringOrEmpty d c
  | .beginString => stateBeginString d c
  | .endValue => stateEndValue d c
  | .endTop => stateEndTop d c
  | .inString => stateInString d c
  | .inStringEsc => stateInStringEsc d c
  | .inStringEscU seen => stateInStringEscU d seen c
  | .neg => stateNeg d c
  | .zero => state0 d c
  | .one => state1 d c
  | .dot => stateDot d c
  | .dot0 => stateDot0 d c
  | .exp => stateE d c
  | .expSign => stateESign d c
  | .exp0 => stateE0 d c
  | .literal rest v => stateLiteral d rest v c
  | .error => d

/-- The end of the input (Go: `scan.eof`, then the decoded value is stored in
the `map[string]any`): a space is fed, which ends a number. A text that is not
one JSON value is a syntax error. Otherwise a JSON object gives its map, unless
a number in it did not fit a `float64`; JSON `null` sets the map to nil and is
no error; a JSON boolean, number, string or array is an `UnmarshalTypeError`. A
top-level nil with a saved error is a top-level number that did not fit. -/
def Decoder.finish (d0 : Decoder) : Except JsonError RawRecord :=
  let d := feed d0 0x20
  match d.step, d.result with
  | .endTop, some v =>
    match v with
    | .map m =>
      match d.saved with
      | none => .ok m
      | some err => .error err
    | .nil =>
      match d.saved with
      | none => .ok []
      | some _ => .error (.unmarshalTypeError "number")
    | .bool _ => .error (.unmarshalTypeError "bool")
    | .float64 _ => .error (.unmarshalTypeError "number")
    | .string _ => .error (.unmarshalTypeError "string")
    | .slice _ => .error (.unmarshalTypeError "array")
    | _ => .error .syntaxError
  | _, _ => .error .syntaxError

/-- Go: `json.Unmarshal(data, &raw)` for `var raw map[string]any`. -/
def Unmarshal (data : Bytes) : Except JsonError RawRecord :=
  (data.foldl feed Decoder.init).finish

/-! ## `bufio.Scanner` with the default split function `ScanLines` -/

/-- A Go `error` value, as far as the parser produces or forwards one. -/
inductive GoError where
  /-- Go: `bufio.ErrTooLong`. -/
  | tooLong
  /-- An error returned by the `Read` method of the underlying reader. -/
  | readFailed (msg : String)
  /-- Go: `fmt.Errorf(text + "%w", cause)`: an error that wraps `cause`. -/
  | wrap (text : String) (cause : GoError)
deriving DecidableEq, Repr

/-- An `io.Reader`: the bytes it delivers and how it ends, with `io.EOF`
(`none`) or with an error. -/
structure Reader where
  data : Bytes
  err : Option GoError

/-- What a `bufio.Scanner` yields: the tokens for which `Scan` returns true,
and the value of `Err` after `Scan` has returned false. -/
structure Scanned where
  lines : List Bytes
  err : Option GoError

/-- Go: `dropCR`: a trailing carriage return is removed. -/
def dropCR (line : Bytes) : Bytes :=
  if line.getLast? = some 0x0D then line.dropLast else line

/-- Go: `bufio.MaxScanTokenSize`, the size the scanner's buffer grows to. -/
def maxScanTokenSize : Nat := 65536

/-- The scanner over the rest of the input; `pending` holds, last first, the
bytes of the line being read. A newline ends a line. A line that fills the
buffer without a newline stops the scan with `ErrTooLong`. At the end of the
input, or at a read error, a non-empty last line is still a token. -/
def scanFrom (r : Reader) : Bytes → Bytes → Scanned
  | pending, [] =>
    match pending with
    | [] => ⟨[], r.err⟩
    | _ :: _ => ⟨[dropCR pending.reverse], r.err⟩
  | pending, b :: rest =>
    if b = 0x0A then
      let s := scanFrom r [] rest
      ⟨dropCR pending.reverse :: s.lines, s.err⟩
    else if maxScanTokenSize ≤ pending.length + 1 then ⟨[], some .tooLong⟩
    else scanFrom r (b :: pending) rest

/-- The lines a `bufio.NewScanner(r)` yields and its final error. -/
def scan (r : Reader) : Scanned := scanFrom r [] r.data

/-! ## `parser`: `ParseJSON` -/

/-- A line written to standard output by `ParseJSON`. -/
inductive Printed where
  /-- Go: `fmt.Println("解析失败:", err)` (json.go:38). -/
  | parseFailed (err : JsonError)
  /-- Go: `fmt.Println("当前行:", string(line))` (json.go:39). -/
  | currentLine (line : Bytes)
deriving DecidableEq, Repr

/-- The variables of the loop of `ParseJSON`: the slice `entries` and what has
been printed. -/
structure ParseState where
  entries : List LogEntry
  out : List Printed

/-- The body of the loop of `ParseJSON` (json.go:26-49) for one line; `now`
is the reading of the clock while the line is processed. `rawToEntry` never
returns nil, so the entry is always appended. -/
def parseLine (E : Env) (now : Time) (st : ParseState) (line : Bytes) : ParseState :=
  if line.length = 0 then st
  else
    match Unmarshal line with
    | .error err => { st with out := st.out ++ [.parseFailed err, .currentLine line] }
    | .ok raw => { st with entries := st.entries ++ [rawToEntry E now raw] }

/-- The loop of `ParseJSON` over the scanned lines; `clock i` is the reading
of `time.Now()` while line `i` (counted from 0) is processed. -/
def parseLines (E : Env) (clock : Nat → Time) : Nat → List Bytes → ParseState → ParseState
  | _, [], st => st
  | i, line :: rest, st => parseLines E clock (i + 1) rest (parseLine E (clock i) st line)

/-- What `ParseJSON` returns and prints. A nil slice is the empty list. -/
structure ParseResult where
  entries : List LogEntry
  err : Option GoError
  out : List Printed

/-- Go: `ParseJSON` (json.go:19-58). -/
def ParseJSON (E : Env) (clock : Nat → Time) (r : Reader) : ParseResult :=
  let s := scan r
  let st := parseLines E clock 0 s.lines ⟨[], []⟩
  match s.err with
  | some err => ⟨[], some (.wrap "read error: " err), st.out⟩
  | none => ⟨st.entries, none, st.out⟩

/-! ## `analyzer`: `Report` and `printMap` -/

/-- Go: `a <= b` on the bytes of two strings: lexicographic, byte by byte, a
proper start of a string coming before the string. -/
def bytesLE : Bytes → Bytes → Bool
  | [], _ => true
  | _ :: _, [] => false
  | a :: as, b :: bs => decide (a.toNat < b.toNat) || (decide (a.toNat = b.toNat) && bytesLE as bs)

/-- The bytes of a Go string: its UTF-8 encoding. -/
def utf8 (s : String) : Bytes := s.toList.flatMap String.utf8EncodeChar

/-- Go: `a <= b` on strings, the order `sort.Strings` sorts by. -/
def keyLE (a b : String) : Prop := bytesLE (utf8 a) (utf8 b) = true

instance keyLE.decidable : DecidableRel keyLE :=
  fun a b => inferInstanceAs (Decidable (bytesLE (utf8 a) (utf8 b) = true))

/-- Go: `sort.Strings(keys)`. The result of sorting does not depend on the
algorithm: strings that compare equal are the same string. -/
def sortStrings (keys : List String) : List String :=
  keys.insertionSort keyLE

/-- A non-negative `float64`: `some (m, p)` is `m * 2^p`, `none` is `+Inf`. -/
abbrev Float64 := Option (Nat × Int)

/-- Go: the conversion `float64(n)` of a non-negative `int`. -/
def float64OfNat (n : Nat) : Float64 := roundBinary64 n 1

/-- Go: `a / b` on `float64`, for finite `a` and finite non-zero `b`, the only
case that arises in `Report`; rounded to nearest, ties to even. -/
def float64Div (a b : Float64) : Float64 :=
  match a, b with
  | some (ma, pa), some (mb, pb) =>
    if mb = 0 then none
    else roundBinary64 (ma * 2 ^ (pa - pb).toNat) (mb * 2 ^ (pb - pa).toNat)
  | _, _ => none

/-- Go: `a * 100` on `float64`; rounded to nearest, ties to even. -/
def float64Mul100 (a : Float64) : Float64 :=
  match a with
  | some (m, p) => roundBinary64 (m * 100 * 2 ^ p.toNat) (2 ^ (-p).toNat)
  | none => none

/-- Go: the verb `%d` for a non-negative integer. -/
def formatNat (n : Nat) : String := Nat.repr n

/-- Go: the verb `%.2f`: the decimal with two fraction digits nearest to the
value, ties to even. -/
def formatFixed2 (a : Float64) : String :=
  match a with
  | none => "+Inf"
  | some (m, p) =>
    let n := roundHalfEven (m * 100 * 2 ^ p.toNat) (2 ^ (-p).toNat)
    formatNat (n / 100) ++ "." ++ formatNat (n % 100 / 10) ++ formatNat (n % 10)

/-- A line printed by `Report` or `printMap`. -/
inductive ReportLine where
  /-- Go: `fmt.Println("========== 日志分析报告 ==========")` (metrics.go:69). -/
  | title
  /-- Go: `fmt.Printf("总条数: %d\n", m.Total)` (metrics.go:71). -/
  | total (n : Nat)
  /-- Go: `fmt.Printf("活跃用户数: %d\n", len(m.UserSet))` (metrics.go:73). -/
  | activeUsers (n : Nat)
  /-- Go: `fmt.Printf("错误条数: %d\n", m.Errors)` (metrics.go:75). -/
  | errors (n : Nat)
  /-- Go: `fmt.Printf("错误率: %.2f%%\n", rate)` (metrics.go:78). -/
  | errorRate (rate : Float64)
  /-- Go: `fmt.Println(heading)` (metrics.go:83, 88, 93). -/
  | heading (text : String)
  /-- Go: `fmt.Printf("  %s: %d\n", k, m[k])` (metrics.go:107). -/
  | item (key : String) (count : Nat)
deriving DecidableEq

/-- The text of a printed line. -/
def ReportLine.text : ReportLine → String
  | .title => "========== 日志分析报告 ==========\n"
  | .total n => "总条数: " ++ formatNat n ++ "\n"
  | .activeUsers n => "活跃用户数: " ++ formatNat n ++ "\n"
  | .errors n => "错误条数: " ++ formatNat n ++ "\n"
  | .errorRate rate => "错误率: " ++ formatFixed2 rate ++ "%\n"
  | .heading text => text ++ "\n"
  | .item key count => "  " ++ key ++ ": " ++ formatNat count ++ "\n"

/-- Go: `printMap` (metrics.go:100-109). The keys are collected by ranging
over the map, here in the order of the association list, then sorted. -/
def printMap (m : StrMap Nat) : List ReportLine :=
  (sortStrings m.keys).map (fun k => .item k ((m.get k).getD 0))

/-- The heading of the section of `ByLevel` (metrics.go:83). -/
def levelHeading : String := "\n--- 按级别 ---"

/-- The heading of the section of `ByAction` (metrics.go:88). -/
def actionHeading : String := "\n--- 按动作 ---"

/-- The heading of the section of `BySource` (metrics.go:93). -/
def sourceHeading : String := "\n--- 按来源 ---"

/-- Go: `Report` (metrics.go:67-96): the lines it prints, in order. -/
def Report (m : Metrics) : List ReportLine :=
  let out : List ReportLine :=
    [.title, .total m.Total, .activeUsers m.UserSet.len, .errors m.Errors]
  let out :=
    if m.Total > 0 then
      out ++ [.errorRate (float64Mul100 (float64Div (float64OfNat m.Errors) (float64OfNat m.Total)))]
    else out
  let out := if m.ByLevel.len > 0 then out ++ .heading levelHeading :: printMap m.ByLevel else out
  let out := if m.ByAction.len > 0 then out ++ .heading actionHeading :: printMap m.ByAction else out
  if m.BySource.len > 0 then out ++ .heading sourceHeading :: printMap m.BySource else out

/-! ## Sample inputs -/

/-- An environment for evaluating the model on sample inputs. Its `time.Parse`
knows one timestamp, `2025-02-15T10:01:00Z` in the layout `RFC3339`; its
`fmt.Sprint` renders booleans; its out-of-range conversion is that of amd64. -/
def sampleEnv : Env where
  timeParse := fun layout value =>
    if layout = RFC3339 ∧ value = "2025-02-15T10:01:00Z" then some ⟨63875210460, 0⟩ else none
  sprint := fun v =>
    match v with
    | .bool true => "true"
    | .bool false => "false"
    | _ => "?"
  int64OutOfRange := fun _ => minInt64

/-- A clock that always reads 2023-11-14T22:13:20Z. -/
def sampleClock : Nat → Time := fun _ => ⟨63835596800, 0⟩

/-! ## Definitions used to state the properties -/

/-- The update of one frequency table by one entry: the field `f` of the entry
is counted unless it is empty. -/
def bump (f : LogEntry → String) (t : StrMap Nat) (e : LogEntry) : StrMap Nat :=
  if f e ≠ "" then incr t (f e) else t

/-- The number of entries whose field `f` equals `k`. -/
def fieldCount (f : LogEntry → String) (entries : List LogEntry) (k : String) : Nat :=
  entries.countP (fun e => decide (f e = k))

/-- The table `t` is the frequency table of the field `f` over `entries`: at
every non-empty key it holds the number of entries whose field is that key,
the key being absent exactly when that number is 0, and the empty string is
not a key. -/
def IsFrequencyTable (t : StrMap Nat) (f : LogEntry → String) (entries : List LogEntry) : Prop :=
  (∀ k : String, k ≠ "" →
    t.get k = if fieldCount f entries k = 0 then none else some (fieldCount f entries k)) ∧
  "" ∉ t.keys

/-- The update of the user set by one entry (metrics.go:52-54). -/
def addUser (t : StrMap Unit) (e : LogEntry) : StrMap Unit :=
  if e.UserID ≠ "" then t.set e.UserID () else t

/-- A timestamp value is recognizable: a string that `time.Parse` accepts in
one of the layouts of `parseTime`, or a number. -/
def Recognizable (E : Env) (v : Value) : Prop :=
  (∃ s layout, v = .string s ∧ layout ∈ layouts ∧ (E.timeParse layout s).isSome = true) ∨
  (∃ f, v = .float64 f)

/-- The sum of the values of a table. -/
def StrMap.sumValues (m : StrMap Nat) : Nat := (m.map Prod.snd).sum

/-- The section of a frequency table in the report: when the table is not
empty, its heading and then the lines of `printMap`. -/
def tableSection (heading : String) (t : StrMap Nat) : List ReportLine :=
  if 0 < t.len then .heading heading :: printMap t else []

/-- The lines of the report before the sections of the tables. -/
def reportSummary (m : Metrics) : List ReportLine :=
  [.title, .total m.Total, .activeUsers m.UserSet.len, .errors m.Errors] ++
    (if 0 < m.Total then
      [.errorRate (float64Mul100 (float64Div (float64OfNat m.Errors) (float64OfNat m.Total)))]
     else [])

/-- The key of a line of `printMap`. -/
def ReportLine.key : ReportLine → Option String
  | .item k _ => some k
  | _ => none

/-- Two entries agree on every field but the timestamp. -/
def AgreeButTimestamp (a b : LogEntry) : Prop :=
  a.Level = b.Level ∧ a.Source = b.Source ∧ a.UserID = b.UserID ∧ a.Action = b.Action ∧
  a.Duration = b.Duration ∧ a.Message = b.Message ∧ a.Metadata = b.Metadata

/-- A reader that delivers one complete line and the start of a second, then
fails. -/
def failingReader : Reader :=
  ⟨utf8 "\x7b\"level\":\"info\"\x7d\n\x7b\"lev", some (.readFailed "connection reset")⟩

/-- An entry that has a level and a user and nothing else. -/
def sampleEntry (level user : String) : LogEntry :=
  { Timestamp := sampleClock 0, Level := level, Source := "", UserID := user, Action := "",
    Duration := 0, Message := "", Metadata := [] }

/-- The binade of `num / den` as `roundBinary64` determines it: the difference
of the positions of the highest bits, lowered by one when the quotient is
below that power of two. -/
def binade (num den : Nat) : Int :=
  let e0 : Int := (log2Floor num num : Int) - (log2Floor den den : Int)
  let atLeast : Bool :=
    if 0 ≤ e0 then decide (2 ^ e0.toNat * den ≤ num) else decide (den ≤ num * 2 ^ (-e0).toNat)
  if atLeast then e0 else e0 - 1

/-! ## Lemmas on maps -/

namespace StrMap

theorem get_set {α : Type} (m : StrMap α) (k : String) (v : α) (k' : String) :
    (m.set k v).get k' = if k = k' then some v else m.get k' := by
  induction m with
  | nil => simp [set, get]
  | cons p rest ih =>
    obtain ⟨k1, v1⟩ := p
    by_cases h1 : k1 = k
    · subst h1
      by_cases h2 : k1 = k' <;> simp [set, get, h2]
    · by_cases h2 : k1 = k'
      · subst h2
        have h3 : ¬ k = k1 := fun h => h1 h.symm
        simp [set, get, h1, h3]
      · simp [set, get, h1, h2, ih]

theorem keys_set {α : Type} (m : StrMap α) (k : String) (v : α) :
    (m.set k v).keys = if k ∈ m.keys then m.keys else m.keys ++ [k] := by
  induction m with
  | nil => simp [set, keys]
  | cons p rest ih =>
    obtain ⟨k1, v1⟩ := p
    by_cases h1 : k1 = k
    · subst h1
      simp [set, keys]
    · have h3 : ¬ k = k1 := fun h => h1 h.symm
      simp only [keys] at ih
      by_cases h4 : k ∈ List.map Prod.fst rest
      · simp [set, keys, h1, h3, h4, ih]
      · simp [set, keys, h1, h3, h4, ih]

theorem get_eq_none_iff {α : Type} (m : StrMap α) (k : String) :
    m.get k = none ↔ k ∉ m.keys := by
  induction m with
  | nil => simp [get, keys]
  | cons p rest ih =>
    obtain ⟨k1, v1⟩ := p
    by_cases h1 : k1 = k
    · subst h1
      simp [get, keys]
    · have h3 : ¬ k = k1 := fun h => h1 h.symm
      simp only [keys] at ih
      simp [get, keys, h1, h3, ih]

theorem nodup_keys_set {α : Type} (m : StrMap α) (k : String) (v : α)
    (h : m.keys.Nodup) : (m.set k v).keys.Nodup := by
  rw [keys_set]
  by_cases hk : k ∈ m.keys
  · simpa [hk] using h
  · simp only [hk, if_false]
    rw [List.nodup_append]
    refine ⟨h, List.nodup_singleton k, ?_⟩
    intro a ha hb
    simp at hb
    subst hb
    exact hk ha

end StrMap

/-! ## Lemmas on `Analyze` -/

theorem analyzeStep_Total (m : Metrics) (e : LogEntry) :
    (analyzeStep m e).Total = m.Total + 1 := by
  unfold analyzeStep
  split_ifs <;> rfl

theorem analyzeStep_ByLevel (m : Metrics) (e : LogEntry) :
    (analyzeStep m e).ByLevel = bump (fun x => x.Level) m.ByLevel e := by
  unfold analyzeStep bump
  split_ifs <;> rfl

theorem analyzeStep_ByAction (m : Metrics) (e : LogEntry) :
    (analyzeStep m e).ByAction = bump (fun x => x.Action) m.ByAction e := by
  unfold analyzeStep bump
  split_ifs <;> rfl

theorem analyzeStep_BySource (m : Metrics) (e : LogEntry) :
    (analyzeStep m e).BySource = bump (fun x => x.Source) m.BySource e := by
  unfold analyzeStep bump
  split_ifs <;> rfl

theorem analyzeStep_UserSet (m : Metrics) (e : LogEntry) :
    (analyzeStep m e).UserSet = if e.UserID ≠ "" then m.UserSet.set e.UserID () else m.UserSet := by
  unfold analyzeStep
  split_ifs <;> rfl

theorem analyzeStep_Errors (m : Metrics) (e : LogEntry) :
    (analyzeStep m e).Errors =
      if e.Level = "error" ∨ e.Level = "ERROR" then m.Errors + 1 else m.Errors := by
  unfold analyzeStep
  split_ifs <;> rfl

theorem foldl_Total (entries : List LogEntry) (m : Metrics) :
    (entries.foldl analyzeStep m).Total = m.Total + entries.length := by
  induction entries generalizing m with
  | nil => simp
  | cons e rest ih =>
    simp only [List.foldl_cons, List.length_cons, ih, analyzeStep_Total]
    omega

theorem foldl_ByLevel (entries : List LogEntry) (m : Metrics) :
    (entries.foldl analyzeStep m).ByLevel = entries.foldl (bump fun x => x.Level) m.ByLevel := by
  induction entries generalizing m with
  | nil => rfl
  | cons e rest ih => simp only [List.foldl_cons, ih, analyzeStep_ByLevel]

theorem foldl_ByAction (entries : List LogEntry) (m : Metrics) :
    (entries.foldl analyzeStep m).ByAction = entries.foldl (bump fun x => x.Action) m.ByAction := by
  induction entries generalizing m with
  | nil => rfl
  | cons e rest ih => simp only [List.foldl_cons, ih, analyzeStep_ByAction]

theorem foldl_BySource (entries : List LogEntry) (m : Metrics) :
    (entries.foldl analyzeStep m).BySource = entries.foldl (bump fun x => x.Source) m.BySource := by
  induction entries generalizing m with
  | nil => rfl
  | cons e rest ih => simp only [List.foldl_cons, ih, analyzeStep_BySource]

theorem foldl_Errors (entries : List LogEntry) (m : Metrics) :
    (entries.foldl analyzeStep m).Errors =
      m.Errors + entries.countP (fun e => decide (e.Level = "error" ∨ e.Level = "ERROR")) := by
  induction entries generalizing m with
  | nil => simp
  | cons e rest ih =>
    simp only [List.foldl_cons, ih, analyzeStep_Errors, List.countP_cons]
    by_cases h : e.Level = "error" ∨ e.Level = "ERROR"
    · simp only [h, if_true, decide_True]
      omega
    · simp [h]

/-- The table after a run of updates, at a non-empty key. -/
theorem foldl_bump_get (f : LogEntry → String) (entries : List LogEntry) (t : StrMap Nat)
    (k : String) (hk : k ≠ "") :
    (entries.foldl (bump f) t).get k =
      if fieldCount f entries k = 0 then t.get k
      else some ((t.get k).getD 0 + fieldCount f entries k) := by
  induction entries generalizing t with
  | nil => simp [fieldCount]
  | cons e rest ih =>
    rw [List.foldl_cons, ih]
    have hc : fieldCount f (e :: rest) k = fieldCount f rest k + if f e = k then 1 else 0 := by
      simp [fieldCount, List.countP_cons]
    rw [hc]
    by_cases h : f e = k
    · have hne : f e ≠ "" := by rw [h]; exact hk
      have hget : (bump f t e).get k = some ((t.get k).getD 0 + 1) := by
        unfold bump
        rw [if_pos hne]
        simp [incr, StrMap.get_set, h]
      rw [hget, if_pos h]
      by_cases h0 : fieldCount f rest k = 0
      · simp [h0]
      · simp only [h0, if_false, Option.getD_some, Nat.add_eq_zero, and_false, one_ne_zero]
        congr 1
        omega
    · have hget : (bump f t e).get k = t.get k := by
        unfold bump
        split_ifs
        · simp [incr, StrMap.get_set, h]
        · rfl
      rw [hget, if_neg h]
      simp

/-- The empty string does not become a key. -/
theorem foldl_bump_get_empty (f : LogEntry → String) (entries : List LogEntry)
    (t : StrMap Nat) : (entries.foldl (bump f) t).get "" = t.get "" := by
  induction entries generalizing t with
  | nil => rfl
  | cons e rest ih =>
    simp only [List.foldl_cons, ih]
    unfold bump
    split_ifs with h
    · simp [incr, StrMap.get_set, h]
    · rfl

theorem foldl_UserSet (entries : List LogEntry) (m : Metrics) :
    (entries.foldl analyzeStep m).UserSet = entries.foldl addUser m.UserSet := by
  induction entries generalizing m with
  | nil => rfl
  | cons e rest ih =>
    simp only [List.foldl_cons, ih, analyzeStep_UserSet]
    rfl

theorem foldl_addUser_mem (entries : List LogEntry) (t : StrMap Unit) (u : String) :
    u ∈ (entries.foldl addUser t).keys ↔
      u ∈ t.keys ∨ (u ≠ "" ∧ ∃ e ∈ entries, e.UserID = u) := by
  induction entries generalizing t with
  | nil => simp
  | cons e rest ih =>
    rw [List.foldl_cons, ih]
    have hstep : u ∈ (addUser t e).keys ↔ u ∈ t.keys ∨ (u ≠ "" ∧ e.UserID = u) := by
      unfold addUser
      by_cases hne : e.UserID ≠ ""
      · rw [if_pos hne, StrMap.keys_set]
        by_cases hin : e.UserID ∈ t.keys
        · rw [if_pos hin]
          constructor
          · exact fun h => Or.inl h
          · rintro (h | ⟨_, h⟩)
            · exact h
            · rw [← h]; exact hin
        · rw [if_neg hin, List.mem_append, List.mem_singleton]
          constructor
          · rintro (h | h)
            · exact Or.inl h
            · exact Or.inr ⟨by rw [h]; exact hne, h.symm⟩
          · rintro (h | ⟨_, h⟩)
            · exact Or.inl h
            · exact Or.inr h.symm
      · rw [if_neg hne]
        have h0 : e.UserID = "" := not_not.mp hne
        constructor
        · exact fun h => Or.inl h
        · rintro (h | ⟨h1, h2⟩)
          · exact h
          · exact absurd (h2 ▸ h0) h1
    rw [hstep]
    simp only [List.mem_cons, exists_eq_or_imp]
    tauto

theorem foldl_addUser_nodup (entries : List LogEntry) (t : StrMap Unit)
    (h : t.keys.Nodup) : (entries.foldl addUser t).keys.Nodup := by
  induction entries generalizing t with
  | nil => exact h
  | cons e rest ih =>
    rw [List.foldl_cons]
    apply ih
    unfold addUser
    split_ifs
    · exact StrMap.nodup_keys_set t _ _ h
    · exact h

theorem foldl_addUser_len (entries : List LogEntry) (t : StrMap Unit) :
    (entries.foldl addUser t).len ≤
      t.len + entries.countP (fun e => decide (e.UserID ≠ "")) := by
  induction entries generalizing t with
  | nil => simp
  | cons e rest ih =>
    rw [List.foldl_cons, List.countP_cons]
    refine le_trans (ih _) ?_
    have hlen : ∀ (m : StrMap Unit) (k : String), (m.set k ()).len ≤ m.len + 1 := by
      intro m k
      have h1 : (m.set k ()).keys.length = (m.set k ()).len := by simp [StrMap.keys, StrMap.len]
      have h2 : m.keys.length = m.len := by simp [StrMap.keys, StrMap.len]
      rw [← h1, ← h2, StrMap.keys_set]
      split_ifs <;> simp
    unfold addUser
    by_cases hne : e.UserID ≠ ""
    · rw [if_pos hne]
      have := hlen t e.UserID
      have hd : decide (e.UserID ≠ "") = true := decide_eq_true hne
      rw [hd]
      simp only [if_true]
      omega
    · rw [if_neg hne]
      omega

theorem analyze_isFrequencyTable (f : LogEntry → String) (entries : List LogEntry) :
    IsFrequencyTable (entries.foldl (bump f) []) f entries := by
  constructor
  · intro k hk
    rw [foldl_bump_get f entries [] k hk]
    simp [StrMap.get]
  · rw [← StrMap.get_eq_none_iff, foldl_bump_get_empty]
    rfl

/-- C3: for every entry sequence, `Analyze(entries).Total` is the length of the
sequence. -/
theorem analyze_total_eq_length (entries : List LogEntry) :
    (Analyze entries).Total = entries.length := by
  unfold Analyze
  rw [foldl_Total]
  simp [Metrics.empty]

/-- C4: for every entry sequence, each of `ByLevel`, `ByAction` and `BySource`
is the frequency table of its field (`Level`, `Action`, `Source`): at every
non-empty key the value is the number of entries whose field equals the key,
the key is absent exactly when that number is 0, and the empty string is never
a key. -/
theorem analyze_tables_are_frequency_tables (entries : List LogEntry) :
    IsFrequencyTable (Analyze entries).ByLevel (fun e => e.Level) entries ∧
    IsFrequencyTable (Analyze entries).ByAction (fun e => e.Action) entries ∧
    IsFrequencyTable (Analyze entries).BySource (fun e => e.Source) entries := by
  unfold Analyze
  rw [foldl_ByLevel, foldl_ByAction, foldl_BySource]
  exact ⟨analyze_isFrequencyTable _ entries, analyze_isFrequencyTable _ entries,
    analyze_isFrequencyTable _ entries⟩

/-- C5: for every entry sequence, `Analyze(entries).Errors` is the number of
entries whose `Level` is exactly `"error"` or exactly `"ERROR"`; an entry with
another spelling, such as `"Error"`, leaves `Errors` as it is. -/
theorem analyze_errors_count (entries : List LogEntry) :
    (Analyze entries).Errors =
        entries.countP (fun e => decide (e.Level = "error" ∨ e.Level = "ERROR")) ∧
    (∀ (m : Metrics) (e : LogEntry), e.Level ≠ "error" → e.Level ≠ "ERROR" →
        (analyzeStep m e).Errors = m.Errors) ∧
    (∀ e : LogEntry, e.Level = "Error" →
        (Analyze (entries ++ [e])).Errors = (Analyze entries).Errors) := by
  refine ⟨?_, ?_, ?_⟩
  · unfold Analyze
    rw [foldl_Errors]
    simp [Metrics.empty]
  · intro m e h1 h2
    rw [analyzeStep_Errors]
    simp [h1, h2]
  · intro e he
    unfold Analyze
    rw [List.foldl_append, List.foldl_cons, List.foldl_nil, analyzeStep_Errors, he]
    simp

/-- C6: for every entry sequence, the keys of `Analyze(entries).UserSet` are
exactly the non-empty `UserID` values that occur in the sequence, each key
once, so `len(UserSet)` is the number of distinct non-empty user IDs; it is at
most `Total` and at most the number of entries with a non-empty `UserID`. -/
theorem analyze_userSet (entries : List LogEntry) :
    (∀ u : String, u ∈ (Analyze entries).UserSet.keys ↔
        u ≠ "" ∧ ∃ e ∈ entries, e.UserID = u) ∧
    (Analyze entries).UserSet.keys.Nodup ∧
    (Analyze entries).UserSet.len =
        ((entries.map fun e => e.UserID).toFinset.erase "").card ∧
    (Analyze entries).UserSet.len ≤ (Analyze entries).Total ∧
    (Analyze entries).UserSet.len ≤ entries.countP (fun e => decide (e.UserID ≠ "")) := by
  have hmem : ∀ u : String, u ∈ (Analyze entries).UserSet.keys ↔
      u ≠ "" ∧ ∃ e ∈ entries, e.UserID = u := by
    intro u
    unfold Analyze
    rw [foldl_UserSet, foldl_addUser_mem]
    simp [Metrics.empty, StrMap.keys]
  have hnodup : (Analyze entries).UserSet.keys.Nodup := by
    unfold Analyze
    rw [foldl_UserSet]
    exact foldl_addUser_nodup entries _ (by simp [Metrics.empty, StrMap.keys])
  have hle : (Analyze entries).UserSet.len ≤
      entries.countP (fun e => decide (e.UserID ≠ "")) := by
    unfold Analyze
    rw [foldl_UserSet]
    have h := foldl_addUser_len entries (Metrics.empty).UserSet
    simpa [Metrics.empty, StrMap.len] using h
  refine ⟨hmem, hnodup, ?_, ?_, hle⟩
  · have hlen : (Analyze entries).UserSet.len = (Analyze entries).UserSet.keys.length := by
      simp [StrMap.keys, StrMap.len]
    rw [hlen, ← List.toFinset_card_of_nodup hnodup]
    congr 1
    ext u
    rw [List.mem_toFinset, hmem u]
    simp only [Finset.mem_erase, List.mem_toFinset, List.mem_map]
  · have htotal : (Analyze entries).Total = entries.length := by
      unfold Analyze
      rw [foldl_Total]
      simp [Metrics.empty]
    rw [htotal]
    exact le_trans hle (List.countP_le_length _)

/-! ## Lemmas on times and conversions -/

theorem wrapInt64_of_inRange (x : Int) (h1 : minInt64 ≤ x) (h2 : x ≤ maxInt64) :
    wrapInt64 x = x := by
  unfold wrapInt64
  unfold minInt64 at h1
  unfold maxInt64 at h2
  omega

theorem wrapInt64_inRange (x : Int) : minInt64 ≤ wrapInt64 x ∧ wrapInt64 x ≤ maxInt64 := by
  unfold wrapInt64 minInt64 maxInt64
  omega

theorem unixNano_ofUnixNano (ns : Int) : Time.unixNano (Time.ofUnixNano ns) = ns := by
  unfold Time.unixNano Time.ofUnixNano
  simp only
  omega

theorem Unix_sec (s : Int) (h1 : minInt64 ≤ s) (h2 : s ≤ 1000000000000) :
    Time.Unix s 0 = Time.ofUnixNano (s * 1000000000) := by
  unfold minInt64 at h1
  unfold Time.Unix Time.unixTime Time.ofUnixNano Time.unixToInternal wrapInt64
  simp only [lt_irrefl, ge_iff_le, false_or]
  rw [if_neg (by omega)]
  congr 1 <;> omega

theorem tdiv_by_cases (a b : Int) (hb : 0 < b) :
    Int.tdiv a b = if 0 ≤ a then a / b else -((-a) / b) := by
  split_ifs with h
  · exact Int.tdiv_eq_ediv h (le_of_lt hb)
  · have h1 : a = -(-a) := by omega
    rw [h1, Int.neg_tdiv, Int.tdiv_eq_ediv (by omega) (le_of_lt hb)]
    simp

theorem UnixMilli_eq (m : Int) (h1 : minInt64 ≤ m) (h2 : m ≤ maxInt64) :
    Time.UnixMilli m = Time.ofUnixNano (m * 1000000) := by
  unfold minInt64 at h1
  unfold maxInt64 at h2
  unfold Time.UnixMilli
  have hq := tdiv_by_cases m 1000 (by norm_num)
  have hr := Int.tmod_def m 1000
  generalize Int.tdiv m 1000 = q at hq hr
  generalize Int.tmod m 1000 = r at hr
  have hrb : -1000 < r ∧ r < 1000 ∧ (0 ≤ m → 0 ≤ r) ∧ (m < 0 → r ≤ 0) := by
    split_ifs at hq <;> omega
  have hw : wrapInt64 (r * 1000000) = r * 1000000 := by
    unfold wrapInt64
    omega
  rw [hw]
  unfold Time.Unix
  by_cases hneg : r < 0
  · have hn : Int.tdiv (r * 1000000) 1000000000 = 0 := by
      rw [tdiv_by_cases _ _ (by norm_num)]
      split_ifs <;> omega
    rw [if_pos (Or.inl (by omega)), hn]
    have hw1 : wrapInt64 (r * 1000000 - wrapInt64 (0 * 1000000000)) = r * 1000000 := by
      unfold wrapInt64
      omega
    have hw2 : wrapInt64 (q + 0) = q := by
      unfold wrapInt64
      split_ifs at hq <;> omega
    simp only [hw1, hw2]
    rw [if_pos (by omega)]
    have hw3 : wrapInt64 (q - 1) = q - 1 := by
      unfold wrapInt64
      split_ifs at hq <;> omega
    have hw4 : wrapInt64 (r * 1000000 + 1000000000) = r * 1000000 + 1000000000 := by
      unfold wrapInt64
      omega
    rw [hw3, hw4]
    unfold Time.unixTime Time.ofUnixNano Time.unixToInternal
    have hw5 : wrapInt64 (q - 1 + 62135596800) = q - 1 + 62135596800 := by
      unfold wrapInt64
      split_ifs at hq <;> omega
    rw [hw5, Time.mk.injEq]
    split_ifs at hq <;> constructor <;> omega
  · rw [if_neg (by omega)]
    unfold Time.unixTime Time.ofUnixNano Time.unixToInternal
    have hw5 : wrapInt64 (q + 62135596800) = q + 62135596800 := by
      unfold wrapInt64
      split_ifs at hq <;> omega
    rw [hw5, Time.mk.injEq]
    split_ifs at hq <;> constructor <;> omega

theorem rat_floor_intCast (z : Int) : Rat.floor (z : ℚ) = z := by
  simp [Rat.floor]

theorem int64OfFloat64_intCast (E : Env) (z : Int) (h1 : minInt64 ≤ z) (h2 : z ≤ maxInt64) :
    int64OfFloat64 E (z : ℚ) = z := by
  unfold int64OfFloat64
  have hz : (if (0 : ℚ) ≤ (z : ℚ) then Rat.floor (z : ℚ) else -Rat.floor (-(z : ℚ))) = z := by
    split_ifs
    · exact rat_floor_intCast z
    · have h : (-(z : ℚ)) = ((-z : Int) : ℚ) := by push_cast; rfl
      rw [h, rat_floor_intCast]
      omega
  simp only [hz]
  rw [if_pos ⟨h1, h2⟩]

theorem parseTime_intCast (E : Env) (v : Int) (h1 : minInt64 ≤ v) (h2 : v ≤ maxInt64) :
    parseTime E (.float64 (v : ℚ)) =
      if v > 1000000000000 then Time.ofUnixNano (v * 1000000)
      else Time.ofUnixNano (v * 1000000000) := by
  have hcmp : ((v : ℚ) > 1000000000000) ↔ v > 1000000000000 := by
    constructor
    · intro h
      exact_mod_cast h
    · intro h
      exact_mod_cast h
  unfold parseTime
  simp only [int64OfFloat64_intCast E v h1 h2]
  by_cases h : v > 1000000000000
  · rw [if_pos (hcmp.mpr h), if_pos h]
    exact UnixMilli_eq v h1 h2
  · rw [if_neg (fun hc => h (hcmp.mp hc)), if_neg h]
    exact Unix_sec v h1 (by omega)

theorem parseLayouts_some (E : Env) (s : String) (ls : List String) (t : Time)
    (h : parseLayouts E s ls = some t) : ∃ layout ∈ ls, E.timeParse layout s = some t := by
  induction ls with
  | nil => simp [parseLayouts] at h
  | cons l rest ih =>
    unfold parseLayouts at h
    cases hp : E.timeParse l s with
    | some parsed =>
      rw [hp] at h
      simp only [Option.some.injEq] at h
      exact ⟨l, List.mem_cons_self _ _, by rw [hp, h]⟩
    | none =>
      rw [hp] at h
      obtain ⟨l', hl', ht⟩ := ih h
      exact ⟨l', List.mem_cons_of_mem _ hl', ht⟩

theorem parseLayouts_ne_none (E : Env) (s : String) (ls : List String) (layout : String)
    (hl : layout ∈ ls) (hp : (E.timeParse layout s).isSome = true) :
    parseLayouts E s ls ≠ none := by
  induction ls with
  | nil => simp at hl
  | cons l rest ih =>
    unfold parseLayouts
    cases hq : E.timeParse l s with
    | some parsed => simp
    | none =>
      simp only
      apply ih
      rcases List.mem_cons.mp hl with h | h
      · subst h
        rw [hq] at hp
        simp at hp
      · exact h

theorem rawToEntry_Timestamp (E : Env) (now : Time) (raw : RawRecord) :
    (rawToEntry E now raw).Timestamp =
      if (match firstPresent raw timestampKeys with
          | some v => parseTime E v
          | none => Time.zero).IsZero
      then now
      else (match firstPresent raw timestampKeys with
          | some v => parseTime E v
          | none => Time.zero) := rfl

/-- C7 (as stated, refuted): the record `{"timestamp": -62135596800}` has a
recognizable timestamp field, a number; `parseTime` reads it as the instant
0001-01-01T00:00:00Z, which is the zero `Time`, so `rawToEntry` replaces it by
the clock reading and the entry's timestamp differs from the value of
`parseTime`. -/
theorem rawToEntry_timestamp_zero_instant_replaced :
    Recognizable sampleEnv (.float64 (-62135596800)) ∧
    firstPresent [("timestamp", .float64 (-62135596800))] timestampKeys
      = some (.float64 (-62135596800)) ∧
    (∀ E : Env, parseTime E (.float64 (-62135596800)) = Time.zero) ∧
    (rawToEntry sampleEnv (sampleClock 0) [("timestamp", .float64 (-62135596800))]).Timestamp
      = sampleClock 0 ∧
    (rawToEntry sampleEnv (sampleClock 0) [("timestamp", .float64 (-62135596800))]).Timestamp
      ≠ parseTime sampleEnv (.float64 (-62135596800)) := by
  have hcast : (-62135596800 : ℚ) = ((-62135596800 : Int) : ℚ) := by norm_num
  have hzero : ∀ E : Env, parseTime E (.float64 (-62135596800)) = Time.zero := by
    intro E
    rw [hcast, parseTime_intCast E _ (by decide) (by decide)]
    decide
  have hfirst : firstPresent [("timestamp", .float64 (-62135596800))] timestampKeys
      = some (.float64 (-62135596800)) := by
    simp [firstPresent, timestampKeys, StrMap.get]
  have hts : (rawToEntry sampleEnv (sampleClock 0)
      [("timestamp", .float64 (-62135596800))]).Timestamp = sampleClock 0 := by
    rw [rawToEntry_Timestamp, hfirst]
    simp only [hzero]
    rfl
  refine ⟨Or.inr ⟨_, rfl⟩, hfirst, hzero, hts, ?_⟩
  rw [hts, hzero]
  decide

/-- C7 (amended): for every record whose first present timestamp key
(`timestamp`, `time`, `@timestamp`, `ts`) holds a recognizable value, the
entry's timestamp is the value `parseTime` returns for it, exactly, unless that
value is the zero `Time` (the instant 0001-01-01T00:00:00Z), in which case it
is the clock reading; and for a string the value of `parseTime` is what
`time.Parse` returns under one of the supported layouts. -/
theorem rawToEntry_timestamp_recognizable (E : Env) (now : Time) (raw : RawRecord)
    (v : Value) (hv : firstPresent raw timestampKeys = some v) (hrec : Recognizable E v) :
    (rawToEntry E now raw).Timestamp =
        (if (parseTime E v).IsZero then now else parseTime E v) ∧
    (∀ s, v = .string s → ∃ layout ∈ layouts, E.timeParse layout s = some (parseTime E v)) := by
  constructor
  · rw [rawToEntry_Timestamp, hv]
  · intro s hs
    subst hs
    rcases hrec with ⟨s', layout, heq, hl, hp⟩ | ⟨f, hf⟩
    · injection heq with heq
      subst heq
      have hne := parseLayouts_ne_none E s layouts layout hl hp
      cases hpl : parseLayouts E s layouts with
      | none => exact absurd hpl hne
      | some t =>
        have hpt : parseTime E (.string s) = t := by
          simp [parseTime, hpl]
        rw [hpt]
        exact parseLayouts_some E s layouts t hpl
    · cases hf

/-- Witness for C7: the record `{"time": "2025-02-15T10:01:00Z"}`. -/
theorem rawToEntry_timestamp_recognizable_witness :
    firstPresent [("time", .string "2025-02-15T10:01:00Z")] timestampKeys
      = some (.string "2025-02-15T10:01:00Z") ∧
    Recognizable sampleEnv (.string "2025-02-15T10:01:00Z") ∧
    (rawToEntry sampleEnv (sampleClock 0) [("time", .string "2025-02-15T10:01:00Z")]).Timestamp
      = (if (parseTime sampleEnv (.string "2025-02-15T10:01:00Z")).IsZero then sampleClock 0
         else parseTime sampleEnv (.string "2025-02-15T10:01:00Z")) ∧
    parseTime sampleEnv (.string "2025-02-15T10:01:00Z") = ⟨63875210460, 0⟩ :=
  have hfirst : firstPresent [("time", .string "2025-02-15T10:01:00Z")] timestampKeys
      = some (.string "2025-02-15T10:01:00Z") := by
    simp [firstPresent, timestampKeys, StrMap.get]
  have hrec : Recognizable sampleEnv (.string "2025-02-15T10:01:00Z") :=
    Or.inl ⟨_, RFC3339, rfl, by simp [layouts], by simp [sampleEnv]⟩
  ⟨hfirst, hrec,
    (rawToEntry_timestamp_recognizable sampleEnv (sampleClock 0) _ _ hfirst hrec).1,
    by simp [parseTime, parseLayouts, layouts, sampleEnv]⟩

/-- C8 (as stated, refuted): under no environment do the numbers 1700000000
and 1700000000000 parse to different instants. -/
theorem parseTime_seconds_millis_not_different :
    ¬ ∃ E : Env, parseTime E (.float64 1700000000) ≠ parseTime E (.float64 1700000000000) := by
  rintro ⟨E, h⟩
  apply h
  have h1 : (1700000000 : ℚ) = ((1700000000 : Int) : ℚ) := by norm_num
  have h2 : (1700000000000 : ℚ) = ((1700000000000 : Int) : ℚ) := by norm_num
  rw [h1, h2, parseTime_intCast E _ (by decide) (by decide),
    parseTime_intCast E _ (by decide) (by decide)]
  decide

/-- C8 (amended): `parseTime` reads 1700000000 as seconds and 1700000000000,
which exceeds the 1e12 threshold, as milliseconds, and the two are the same
instant, 2023-11-14T22:13:20Z. -/
theorem parseTime_seconds_millis_same_instant (E : Env) :
    parseTime E (.float64 1700000000) = Time.ofUnixNano (1700000000 * 1000000000) ∧
    parseTime E (.float64 1700000000000) = Time.ofUnixNano (1700000000000 * 1000000) ∧
    parseTime E (.float64 1700000000) = parseTime E (.float64 1700000000000) ∧
    parseTime E (.float64 1700000000) = ⟨63835596800, 0⟩ := by
  have h1 : (1700000000 : ℚ) = ((1700000000 : Int) : ℚ) := by norm_num
  have h2 : (1700000000000 : ℚ) = ((1700000000000 : Int) : ℚ) := by norm_num
  rw [h1, h2, parseTime_intCast E _ (by decide) (by decide),
    parseTime_intCast E _ (by decide) (by decide)]
  decide

/-- C9 (as stated, refuted): the integer-valued input 9223372036854775808
(2^63) exceeds 10^12, yet under no environment is the result the instant that
many milliseconds after the Unix epoch: `int64(t)` cannot hold the value. -/
theorem parseTime_number_beyond_int64 :
    ¬ ∃ E : Env, parseTime E (.float64 9223372036854775808)
        = Time.ofUnixNano (9223372036854775808 * 1000000) := by
  rintro ⟨E, h⟩
  have hcast : (9223372036854775808 : ℚ) = ((9223372036854775808 : Int) : ℚ) := by norm_num
  have hconv : int64OfFloat64 E (9223372036854775808 : ℚ)
      = wrapInt64 (E.int64OutOfRange 9223372036854775808) := by
    unfold int64OfFloat64
    have hz : (if (0 : ℚ) ≤ 9223372036854775808 then Rat.floor (9223372036854775808 : ℚ)
        else -Rat.floor (-(9223372036854775808 : ℚ))) = 9223372036854775808 := by
      rw [if_pos (by norm_num), hcast, rat_floor_intCast]
    simp only [hz]
    rw [if_neg (by decide)]
  have hgt : (9223372036854775808 : ℚ) > 1000000000000 := by norm_num
  unfold parseTime at h
  simp only [if_pos hgt, hconv] at h
  obtain ⟨hlo, hhi⟩ := wrapInt64_inRange (E.int64OutOfRange 9223372036854775808)
  rw [UnixMilli_eq _ hlo hhi] at h
  generalize wrapInt64 (E.int64OutOfRange 9223372036854775808) = w at h hlo hhi
  unfold maxInt64 at hhi
  unfold Time.ofUnixNano at h
  simp only [Time.mk.injEq] at h
  omega

/-- C9 (amended): for every integer `v` in the range of `int64`, `parseTime(v)`
is the instant `v` milliseconds after the Unix epoch when `v` is strictly
greater than 10^12, and the instant `v` seconds after it otherwise; so 10^12
itself is read as seconds. -/
theorem parseTime_integer_in_int64_range (E : Env) (v : Int)
    (h1 : minInt64 ≤ v) (h2 : v ≤ maxInt64) :
    (v > 1000000000000 →
      parseTime E (.float64 (v : ℚ)) = Time.ofUnixNano (v * 1000000) ∧
      Time.unixNano (parseTime E (.float64 (v : ℚ))) = v * 1000000) ∧
    (v ≤ 1000000000000 →
      parseTime E (.float64 (v : ℚ)) = Time.ofUnixNano (v * 1000000000) ∧
      Time.unixNano (parseTime E (.float64 (v : ℚ))) = v * 1000000000) := by
  constructor
  · intro h
    have hp := parseTime_intCast E v h1 h2
    rw [if_pos h] at hp
    exact ⟨hp, by rw [hp, unixNano_ofUnixNano]⟩
  · intro h
    have hp := parseTime_intCast E v h1 h2
    rw [if_neg (by omega)] at hp
    exact ⟨hp, by rw [hp, unixNano_ofUnixNano]⟩

/-- Witness for C9: the threshold 10^12 itself, read as seconds. -/
theorem parseTime_integer_in_int64_range_witness :
    minInt64 ≤ 1000000000000 ∧ (1000000000000 : Int) ≤ maxInt64 ∧
    parseTime sampleEnv (.float64 ((1000000000000 : Int) : ℚ))
      = Time.ofUnixNano (1000000000000 * 1000000000) :=
  ⟨by decide, by decide,
    ((parseTime_integer_in_int64_range sampleEnv 1000000000000 (by decide) (by decide)).2
      (le_refl _)).1⟩

/-- C10: for every record, whatever its keys and values, if the clock reading
is not the zero `Time` then the timestamp of the entry `rawToEntry` produces is
not the zero `Time`. -/
theorem rawToEntry_timestamp_not_zero (E : Env) (now : Time) (raw : RawRecord)
    (hnow : now.IsZero = false) : (rawToEntry E now raw).Timestamp.IsZero = false := by
  rw [rawToEntry_Timestamp]
  split_ifs with h
  · exact hnow
  · simpa using h

/-- Witness for C10: a record whose timestamp parses to the zero `Time`. -/
theorem rawToEntry_timestamp_not_zero_witness :
    (sampleClock 0).IsZero = false ∧
    (rawToEntry sampleEnv (sampleClock 0)
      [("ts", .string "not a time"), ("level", .string "info")]).Timestamp.IsZero = false :=
  ⟨by decide, rawToEntry_timestamp_not_zero sampleEnv (sampleClock 0) _ (by decide)⟩

/-! ## Lemmas on the JSON decoder -/

theorem firstPresent_cons (raw : RawRecord) (key : String) (rest : List String) :
    firstPresent raw (key :: rest) =
      match raw.get key with
      | some v => some v
      | none => firstPresent raw rest := rfl

/-- C11: in `rawToEntry` the timestamp is decided by the first present key
among `timestamp`, `time`, `@timestamp`, `ts`, and by nothing else in the
record: when none of the four is present it is the clock reading; when the
value of the first present key parses to the zero `Time` it is the clock
reading as well, whatever the later keys hold; otherwise it is what `parseTime`
returns for that value. -/
theorem rawToEntry_timestamp_first_present_key (E : Env) (now : Time) (raw : RawRecord) :
    (firstPresent raw timestampKeys =
      match raw.get "timestamp", raw.get "time", raw.get "@timestamp", raw.get "ts" with
      | some v, _, _, _ => some v
      | none, some v, _, _ => some v
      | none, none, some v, _ => some v
      | none, none, none, r => r) ∧
    (firstPresent raw timestampKeys = none → (rawToEntry E now raw).Timestamp = now) ∧
    (∀ v, firstPresent raw timestampKeys = some v → (parseTime E v).IsZero = true →
      (rawToEntry E now raw).Timestamp = now) ∧
    (∀ v, firstPresent raw timestampKeys = some v → (parseTime E v).IsZero = false →
      (rawToEntry E now raw).Timestamp = parseTime E v) ∧
    (∀ raw' : RawRecord, firstPresent raw' timestampKeys = firstPresent raw timestampKeys →
      (rawToEntry E now raw').Timestamp = (rawToEntry E now raw).Timestamp) ∧
    (rawToEntry sampleEnv now
      [("timestamp", .string "yesterday"), ("time", .string "2025-02-15T10:01:00Z")]).Timestamp
      = now := by
  refine ⟨?_, ?_, ?_, ?_, ?_, ?_⟩
  · simp only [timestampKeys, firstPresent_cons, firstPresent]
    cases raw.get "timestamp" <;> cases raw.get "time" <;> cases raw.get "@timestamp" <;>
      cases raw.get "ts" <;> rfl
  · intro h
    rw [rawToEntry_Timestamp, h]
    rfl
  · intro v h hz
    rw [rawToEntry_Timestamp, h]
    simp only [hz, if_true]
  · intro v h hz
    rw [rawToEntry_Timestamp, h]
    simp [hz]
  · intro raw' h
    rw [rawToEntry_Timestamp, rawToEntry_Timestamp, h]
  · have hfirst : firstPresent
        [("timestamp", Value.string "yesterday"), ("time", .string "2025-02-15T10:01:00Z")]
        timestampKeys = some (.string "yesterday") := by
      simp [firstPresent, timestampKeys, StrMap.get]
    have hz : parseTime sampleEnv (.string "yesterday") = Time.zero := by
      simp [parseTime, parseLayouts, layouts, sampleEnv]
    rw [rawToEntry_Timestamp, hfirst]
    simp only [hz]
    rfl

theorem rawToEntry_Level (E : Env) (now : Time) (raw : RawRecord) :
    (rawToEntry E now raw).Level =
      match firstPresent raw levelKeys with
      | some v => toString E v
      | none => "" := rfl

theorem rawToEntry_Message (E : Env) (now : Time) (raw : RawRecord) :
    (rawToEntry E now raw).Message =
      match firstPresent raw messageKeys with
      | some v => toString E v
      | none => "" := rfl

/-- C12: for every record, `Level` is `toString` of the value of the first key
present among `level`, `lvl`, `severity`, in that order, and the empty string
when none is present; `Message` follows the same rule over `message`, `msg`,
`log`. An earlier key that is present wins even when its value is null, which
gives the empty string. -/
theorem rawToEntry_level_message_first_present (E : Env) (now : Time) (raw : RawRecord) :
    ((rawToEntry E now raw).Level =
      match raw.get "level", raw.get "lvl", raw.get "severity" with
      | some v, _, _ => toString E v
      | none, some v, _ => toString E v
      | none, none, some v => toString E v
      | none, none, none => "") ∧
    ((rawToEntry E now raw).Message =
      match raw.get "message", raw.get "msg", raw.get "log" with
      | some v, _, _ => toString E v
      | none, some v, _ => toString E v
      | none, none, some v => toString E v
      | none, none, none => "") ∧
    (raw.get "level" = some .nil → (rawToEntry E now raw).Level = "") ∧
    (raw.get "message" = some .nil → (rawToEntry E now raw).Message = "") ∧
    (rawToEntry E now [("level", .nil), ("lvl", .string "warn")]).Level = "" ∧
    (rawToEntry E now [("lvl", .string "warn"), ("severity", .string "low")]).Level = "warn" := by
  have hl : (rawToEntry E now raw).Level =
      match raw.get "level", raw.get "lvl", raw.get "severity" with
      | some v, _, _ => toString E v
      | none, some v, _ => toString E v
      | none, none, some v => toString E v
      | none, none, none => "" := by
    rw [rawToEntry_Level]
    simp only [levelKeys, firstPresent_cons, firstPresent]
    cases raw.get "level" <;> cases raw.get "lvl" <;> cases raw.get "severity" <;> rfl
  have hm : (rawToEntry E now raw).Message =
      match raw.get "message", raw.get "msg", raw.get "log" with
      | some v, _, _ => toString E v
      | none, some v, _ => toString E v
      | none, none, some v => toString E v
      | none, none, none => "" := by
    rw [rawToEntry_Message]
    simp only [messageKeys, firstPresent_cons, firstPresent]
    cases raw.get "message" <;> cases raw.get "msg" <;> cases raw.get "log" <;> rfl
  refine ⟨hl, hm, ?_, ?_, ?_, ?_⟩
  · intro h
    rw [hl, h]
    rfl
  · intro h
    rw [hm, h]
    rfl
  · rw [rawToEntry_Level]
    simp [firstPresent, levelKeys, StrMap.get, toString]
  · rw [rawToEntry_Level]
    simp [firstPresent, levelKeys, StrMap.get, toString]

/-- C13: for every record, the `Metadata` of the entry `rawToEntry` produces is
the record itself, unchanged: every key has the value it has in the record,
the keys whose values were extracted into other fields included. -/
theorem rawToEntry_metadata_is_raw (E : Env) (now : Time) (raw : RawRecord) :
    (rawToEntry E now raw).Metadata = raw ∧
    (∀ k : String, (rawToEntry E now raw).Metadata.get k = raw.get k) ∧
    (rawToEntry E now raw).Metadata.keys = raw.keys :=
  ⟨rfl, fun _ => rfl, rfl⟩

/-! ## `ParseJSON`: read errors and blank lines -/

theorem scanFrom_err (r : Reader) (data pending : Bytes) :
    (scanFrom r pending data).err = r.err ∨ (scanFrom r pending data).err = some .tooLong := by
  induction data generalizing pending with
  | nil =>
    unfold scanFrom
    cases pending <;> exact Or.inl rfl
  | cons b rest ih =>
    unfold scanFrom
    split_ifs
    · exact ih []
    · exact Or.inr rfl
    · exact ih (b :: pending)

/-- C14: if the scan of the stream ends with an error (`scanner.Err()` is not
nil: the reader failed, or a line was too long for the scanner), `ParseJSON`
returns the error `read error: ...` that wraps that cause, and no entries,
however many lines had been parsed before; the cause is the error of the
reader unless it is `bufio.ErrTooLong`. What was printed stays printed. -/
theorem ParseJSON_read_error (E : Env) (clock : Nat → Time) (r : Reader) (cause : GoError)
    (h : (scan r).err = some cause) :
    (ParseJSON E clock r).err = some (.wrap "read error: " cause) ∧
    (ParseJSON E clock r).entries = [] ∧
    (ParseJSON E clock r).out = (parseLines E clock 0 (scan r).lines ⟨[], []⟩).out ∧
    (r.err = some cause ∨ cause = .tooLong) := by
  refine ⟨?_, ?_, ?_, ?_⟩
  · unfold ParseJSON
    simp only [h]
  · unfold ParseJSON
    simp only [h]
  · unfold ParseJSON
    simp only [h]
  · rcases scanFrom_err r r.data [] with h1 | h1
    · left
      rw [← h1]
      exact h
    · right
      have h2 : (scan r).err = some .tooLong := h1
      rw [h] at h2
      injection h2

/-- Witness for C14: a reader that fails after one complete line and the start
of a second: the first line had been parsed into an entry, yet no entry is
returned, and the error wraps the reader's. -/
theorem ParseJSON_read_error_witness :
    (scan failingReader).err = some (.readFailed "connection reset") ∧
    (scan failingReader).lines = [utf8 "\x7b\"level\":\"info\"\x7d", utf8 "\x7b\"lev"] ∧
    (parseLines sampleEnv sampleClock 0 (scan failingReader).lines ⟨[], []⟩).entries.length = 1 ∧
    (ParseJSON sampleEnv sampleClock failingReader).err
      = some (.wrap "read error: " (.readFailed "connection reset")) ∧
    (ParseJSON sampleEnv sampleClock failingReader).entries = [] :=
  have h := ParseJSON_read_error sampleEnv sampleClock failingReader
    (.readFailed "connection reset") rfl
  ⟨rfl, rfl, rfl, h.1, h.2.1⟩

theorem scanFrom_newlines (r : Reader) (hr : r.err = none) (n : Nat) :
    scanFrom r [] (List.replicate n 0x0A) = ⟨List.replicate n [], none⟩ := by
  induction n with
  | zero =>
    simp only [List.replicate, scanFrom]
    rw [hr]
  | succ k ih =>
    have hd : dropCR ([] : Bytes).reverse = [] := rfl
    simp only [List.replicate, scanFrom, if_true, ih, hd]

theorem parseLines_blank (E : Env) (clock : Nat → Time) (lines : List Bytes)
    (h : ∀ l ∈ lines, l = []) (i : Nat) (st : ParseState) :
    parseLines E clock i lines st = st := by
  induction lines generalizing i st with
  | nil => rfl
  | cons l rest ih =>
    have hl : l = [] := h l (List.mem_cons_self _ _)
    subst hl
    rw [parseLines]
    have hp : parseLine E (clock i) st [] = st := by
      simp [parseLine]
    rw [hp]
    exact ih (fun x hx => h x (List.mem_cons_of_mem _ hx)) _ _

/-- C17: for every stream that consists solely of blank lines, in any number
(`n` newlines and nothing else, read to the end without error), `ParseJSON`
returns zero entries, prints no diagnostic and returns no error; the same
holds for every stream read without error all of whose scanned lines have
length zero. -/
theorem ParseJSON_blank_lines (E : Env) (clock : Nat → Time) :
    (∀ n : Nat,
      (scan ⟨List.replicate n 0x0A, none⟩).lines = List.replicate n [] ∧
      (ParseJSON E clock ⟨List.replicate n 0x0A, none⟩).entries = [] ∧
      (ParseJSON E clock ⟨List.replicate n 0x0A, none⟩).out = [] ∧
      (ParseJSON E clock ⟨List.replicate n 0x0A, none⟩).err = none) ∧
    (∀ r : Reader, (scan r).err = none → (∀ l ∈ (scan r).lines, l = []) →
      (ParseJSON E clock r).entries = [] ∧ (ParseJSON E clock r).out = [] ∧
      (ParseJSON E clock r).err = none) := by
  have hgen : ∀ r : Reader, (scan r).err = none → (∀ l ∈ (scan r).lines, l = []) →
      (ParseJSON E clock r).entries = [] ∧ (ParseJSON E clock r).out = [] ∧
      (ParseJSON E clock r).err = none := by
    intro r herr hblank
    unfold ParseJSON
    simp only [herr, parseLines_blank E clock _ hblank]
    exact ⟨trivial, trivial, trivial⟩
  refine ⟨?_, hgen⟩
  intro n
  have hs : scan ⟨List.replicate n 0x0A, none⟩ = ⟨List.replicate n [], none⟩ :=
    scanFrom_newlines ⟨List.replicate n 0x0A, none⟩ rfl n
  have hb : ∀ l ∈ (scan ⟨List.replicate n 0x0A, none⟩).lines, l = [] := by
    intro l hl
    rw [hs] at hl
    exact List.eq_of_mem_replicate hl
  exact ⟨by rw [hs], hgen _ (by rw [hs]) hb⟩

/-! ## `Analyze`: relations between the counters, order of the input, the clock -/

theorem sumValues_incr (t : StrMap Nat) (k : String) :
    (incr t k).sumValues = t.sumValues + 1 := by
  unfold incr
  induction t with
  | nil => simp [StrMap.set, StrMap.get, StrMap.sumValues]
  | cons p rest ih =>
    obtain ⟨k1, v1⟩ := p
    by_cases h : k1 = k
    · subst h
      simp [StrMap.set, StrMap.get, StrMap.sumValues]
      omega
    · simp only [StrMap.sumValues] at ih
      simp only [StrMap.set, StrMap.get, h, if_false, StrMap.sumValues, List.map_cons,
        List.sum_cons, ih]
      omega

theorem foldl_bump_sumValues (f : LogEntry → String) (entries : List LogEntry)
    (t : StrMap Nat) :
    (entries.foldl (bump f) t).sumValues
      = t.sumValues + entries.countP (fun e => decide (f e ≠ "")) := by
  induction entries generalizing t with
  | nil => simp
  | cons e rest ih =>
    rw [List.foldl_cons, ih, List.countP_cons]
    unfold bump
    by_cases h : f e ≠ ""
    · rw [if_pos h, sumValues_incr]
      have hd : decide (f e ≠ "") = true := decide_eq_true h
      rw [hd]
      simp only [if_true]
      omega
    · rw [if_neg h]
      have hd : decide (f e ≠ "") = false := decide_eq_false h
      rw [hd]
      simp

theorem table_getD (f : LogEntry → String) (entries : List LogEntry) (k : String)
    (hk : k ≠ "") :
    ((entries.foldl (bump f) []).get k).getD 0 = fieldCount f entries k := by
  rw [foldl_bump_get f entries [] k hk]
  split_ifs with h
  · simp [StrMap.get, h]
  · simp [StrMap.get]

theorem countP_error_split (entries : List LogEntry) :
    entries.countP (fun e => decide (e.Level = "error" ∨ e.Level = "ERROR"))
      = fieldCount (fun e => e.Level) entries "error"
        + fieldCount (fun e => e.Level) entries "ERROR" := by
  unfold fieldCount
  induction entries with
  | nil => rfl
  | cons e rest ih =>
    simp only [List.countP_cons, ih]
    by_cases h1 : e.Level = "error"
    · have h2 : ¬ e.Level = "ERROR" := by rw [h1]; decide
      simp only [h1, h2, or_false, decide_True, decide_False, if_true]
      simp
      omega
    · by_cases h2 : e.Level = "ERROR"
      · simp only [h1, h2, false_or, decide_True, decide_False, if_true]
        simp
        omega
      · simp [h1, h2]

/-- C18: for every entry sequence, `Errors` is `ByLevel["error"]` plus
`ByLevel["ERROR"]`, a missing key counting as 0; hence `Errors` is at most the
sum of all values of `ByLevel`, which is at most `Total`. -/
theorem analyze_errors_within_byLevel (entries : List LogEntry) :
    (Analyze entries).Errors
      = ((Analyze entries).ByLevel.get "error").getD 0
        + ((Analyze entries).ByLevel.get "ERROR").getD 0 ∧
    (Analyze entries).Errors ≤ (Analyze entries).ByLevel.sumValues ∧
    (Analyze entries).ByLevel.sumValues ≤ (Analyze entries).Total := by
  have herr : (Analyze entries).Errors
      = entries.countP (fun e => decide (e.Level = "error" ∨ e.Level = "ERROR")) := by
    unfold Analyze
    rw [foldl_Errors]
    simp [Metrics.empty]
  have hlev : (Analyze entries).ByLevel = entries.foldl (bump fun e => e.Level) [] := by
    unfold Analyze
    rw [foldl_ByLevel]
    rfl
  have hsum : (Analyze entries).ByLevel.sumValues
      = entries.countP (fun e => decide (e.Level ≠ "")) := by
    rw [hlev, foldl_bump_sumValues]
    simp [StrMap.sumValues]
  have htot : (Analyze entries).Total = entries.length := by
    unfold Analyze
    rw [foldl_Total]
    simp [Metrics.empty]
  refine ⟨?_, ?_, ?_⟩
  · rw [herr, hlev, table_getD _ _ _ (by decide), table_getD _ _ _ (by decide)]
    exact countP_error_split entries
  · rw [herr, hsum]
    apply List.countP_mono_left
    intro e _ he
    simp only [decide_eq_true_eq] at he ⊢
    rcases he with he | he <;> rw [he] <;> decide
  · rw [hsum, htot]
    exact List.countP_le_length _

theorem table_get (f : LogEntry → String) (entries : List LogEntry) (k : String) :
    (entries.foldl (bump f) []).get k =
      if k = "" then none
      else if fieldCount f entries k = 0 then none else some (fieldCount f entries k) := by
  by_cases hk : k = ""
  · subst hk
    rw [foldl_bump_get_empty]
    rfl
  · rw [if_neg hk, foldl_bump_get f entries [] k hk]
    split_ifs <;> simp [StrMap.get]

theorem fieldCount_perm (f : LogEntry → String) (l1 l2 : List LogEntry) (h : l1.Perm l2)
    (k : String) : fieldCount f l1 k = fieldCount f l2 k :=
  h.countP_eq _

theorem foldl_bump_nodup (f : LogEntry → String) (entries : List LogEntry) (t : StrMap Nat)
    (h : t.keys.Nodup) : (entries.foldl (bump f) t).keys.Nodup := by
  induction entries generalizing t with
  | nil => exact h
  | cons e rest ih =>
    rw [List.foldl_cons]
    apply ih
    unfold bump incr
    split_ifs
    · exact StrMap.nodup_keys_set t _ _ h
    · exact h

theorem StrMap.len_eq_of_get_eq {α : Type} (m1 m2 : StrMap α) (h1 : m1.keys.Nodup)
    (h2 : m2.keys.Nodup) (hget : ∀ k, m1.get k = m2.get k) : m1.len = m2.len := by
  have hperm : m1.keys.Perm m2.keys := by
    rw [List.perm_ext_iff_of_nodup h1 h2]
    intro k
    have e1 := StrMap.get_eq_none_iff m1 k
    have e2 := StrMap.get_eq_none_iff m2 k
    rw [hget k] at e1
    constructor
    · intro hk
      by_contra hc
      exact (e1.mp (e2.mpr hc)) hk
    · intro hk
      by_contra hc
      exact (e2.mp (e1.mpr hc)) hk
  have hl := hperm.length_eq
  simpa [StrMap.keys, StrMap.len] using hl

theorem StrMap.get_unit (m : StrMap Unit) (u : String) :
    m.get u = if u ∈ m.keys then some () else none := by
  split_ifs with h
  · cases hg : m.get u with
    | none => exact absurd h ((StrMap.get_eq_none_iff m u).mp hg)
    | some x => rfl
  · exact (StrMap.get_eq_none_iff m u).mpr h

/-- C19: `Analyze` does not depend on the order of its input: for every entry
sequence and every permutation of it, `Total` and `Errors` are the same, each
of the three frequency tables has the same value (or none) at every key, the
user set has the same members, and the tables and the set have the same
number of keys. -/
theorem analyze_perm_invariant (l1 l2 : List LogEntry) (h : l1.Perm l2) :
    (Analyze l1).Total = (Analyze l2).Total ∧
    (Analyze l1).Errors = (Analyze l2).Errors ∧
    (∀ k, (Analyze l1).ByLevel.get k = (Analyze l2).ByLevel.get k) ∧
    (∀ k, (Analyze l1).ByAction.get k = (Analyze l2).ByAction.get k) ∧
    (∀ k, (Analyze l1).BySource.get k = (Analyze l2).BySource.get k) ∧
    (∀ u, (Analyze l1).UserSet.get u = (Analyze l2).UserSet.get u) ∧
    (Analyze l1).ByLevel.len = (Analyze l2).ByLevel.len ∧
    (Analyze l1).ByAction.len = (Analyze l2).ByAction.len ∧
    (Analyze l1).BySource.len = (Analyze l2).BySource.len ∧
    (Analyze l1).UserSet.len = (Analyze l2).UserSet.len := by
  have htab : ∀ (f : LogEntry → String) (k : String),
      (l1.foldl (bump f) []).get k = (l2.foldl (bump f) []).get k := by
    intro f k
    rw [table_get, table_get, fieldCount_perm f l1 l2 h k]
  have hnd : ∀ (f : LogEntry → String) (l : List LogEntry),
      (l.foldl (bump f) []).keys.Nodup :=
    fun f l => foldl_bump_nodup f l [] (by simp [StrMap.keys])
  have hund : ∀ l : List LogEntry, (l.foldl addUser []).keys.Nodup :=
    fun l => foldl_addUser_nodup l [] (by simp [StrMap.keys])
  have huser : ∀ u, (l1.foldl addUser []).get u = (l2.foldl addUser []).get u := by
    intro u
    rw [StrMap.get_unit, StrMap.get_unit]
    have hm : u ∈ (l1.foldl addUser []).keys ↔ u ∈ (l2.foldl addUser []).keys := by
      rw [foldl_addUser_mem, foldl_addUser_mem]
      simp only [h.mem_iff]
    by_cases hu : u ∈ (l1.foldl addUser []).keys
    · rw [if_pos hu, if_pos (hm.mp hu)]
    · rw [if_neg hu, if_neg (fun hc => hu (hm.mpr hc))]
  unfold Analyze
  simp only [foldl_Total, foldl_Errors, foldl_ByLevel, foldl_ByAction, foldl_BySource,
    foldl_UserSet, Metrics.empty]
  refine ⟨by rw [h.length_eq], by rw [h.countP_eq], htab _, htab _, htab _, huser,
    ?_, ?_, ?_, ?_⟩
  · exact StrMap.len_eq_of_get_eq _ _ (hnd _ l1) (hnd _ l2) (htab _)
  · exact StrMap.len_eq_of_get_eq _ _ (hnd _ l1) (hnd _ l2) (htab _)
  · exact StrMap.len_eq_of_get_eq _ _ (hnd _ l1) (hnd _ l2) (htab _)
  · exact StrMap.len_eq_of_get_eq _ _ (hund l1) (hund l2) huser

/-- Witness for C19: two entries in either order; the tables agree at every
key although the keys were inserted in a different order. -/
theorem analyze_perm_invariant_witness :
    [sampleEntry "error" "u1", sampleEntry "info" "u2"].Perm
      [sampleEntry "info" "u2", sampleEntry "error" "u1"] ∧
    (∀ k, (Analyze [sampleEntry "error" "u1", sampleEntry "info" "u2"]).ByLevel.get k
      = (Analyze [sampleEntry "info" "u2", sampleEntry "error" "u1"]).ByLevel.get k) ∧
    (Analyze [sampleEntry "error" "u1", sampleEntry "info" "u2"]).ByLevel
      = [("error", 1), ("info", 1)] ∧
    (Analyze [sampleEntry "info" "u2", sampleEntry "error" "u1"]).ByLevel
      = [("info", 1), ("error", 1)] :=
  ⟨List.Perm.swap _ _ _,
    (analyze_perm_invariant _ _ (List.Perm.swap _ _ _)).2.2.1, by decide, by decide⟩

theorem analyzeStep_congr (m : Metrics) (e1 e2 : LogEntry) (h : AgreeButTimestamp e1 e2) :
    analyzeStep m e1 = analyzeStep m e2 := by
  obtain ⟨h1, h2, h3, h4, _, _, _⟩ := h
  unfold analyzeStep
  rw [h1, h2, h3, h4]

theorem foldl_analyzeStep_congr (l1 l2 : List LogEntry)
    (h : List.Forall₂ AgreeButTimestamp l1 l2) (m : Metrics) :
    l1.foldl analyzeStep m = l2.foldl analyzeStep m := by
  induction h generalizing m with
  | nil => rfl
  | cons hab _ ih =>
    rw [List.foldl_cons, List.foldl_cons, analyzeStep_congr m _ _ hab]
    exact ih _

theorem rawToEntry_agree (E : Env) (now1 now2 : Time) (raw : RawRecord) :
    AgreeButTimestamp (rawToEntry E now1 raw) (rawToEntry E now2 raw) :=
  ⟨rfl, rfl, rfl, rfl, rfl, rfl, rfl⟩

theorem parseLines_agree (E : Env) (clock1 clock2 : Nat → Time) (lines : List Bytes) (i : Nat)
    (st1 st2 : ParseState) (he : List.Forall₂ AgreeButTimestamp st1.entries st2.entries)
    (ho : st1.out = st2.out) :
    List.Forall₂ AgreeButTimestamp (parseLines E clock1 i lines st1).entries
      (parseLines E clock2 i lines st2).entries ∧
    (parseLines E clock1 i lines st1).out = (parseLines E clock2 i lines st2).out := by
  induction lines generalizing i st1 st2 with
  | nil => exact ⟨he, ho⟩
  | cons line rest ih =>
    rw [parseLines, parseLines]
    apply ih
    · unfold parseLine
      split_ifs
      · exact he
      · cases Unmarshal line with
        | error err => exact he
        | ok raw =>
          simp only []
          exact List.rel_append he (List.Forall₂.cons (rawToEntry_agree E _ _ raw) .nil)
    · unfold parseLine
      split_ifs
      · exact ho
      · cases Unmarshal line with
        | error err => simp only [ho]
        | ok raw => exact ho

/-- C20: the clock influences only the timestamp. For every record and any two
clock readings the two entries `rawToEntry` produces agree on `Level`,
`Source`, `UserID`, `Action`, `Duration`, `Message` and `Metadata`; a step of
`Analyze` is the same for two entries that agree on these; so for every stream
the `Metrics` computed from what `ParseJSON` returns, the diagnostics and the
error are the same under any two clocks. -/
theorem clock_only_affects_timestamp (E : Env) :
    (∀ (now1 now2 : Time) (raw : RawRecord),
      AgreeButTimestamp (rawToEntry E now1 raw) (rawToEntry E now2 raw)) ∧
    (∀ (m : Metrics) (e1 e2 : LogEntry), AgreeButTimestamp e1 e2 →
      analyzeStep m e1 = analyzeStep m e2) ∧
    (∀ (clock1 clock2 : Nat → Time) (r : Reader),
      Analyze (ParseJSON E clock1 r).entries = Analyze (ParseJSON E clock2 r).entries ∧
      (ParseJSON E clock1 r).out = (ParseJSON E clock2 r).out ∧
      (ParseJSON E clock1 r).err = (ParseJSON E clock2 r).err) := by
  refine ⟨rawToEntry_agree E, analyzeStep_congr, ?_⟩
  intro clock1 clock2 r
  obtain ⟨h1, h2⟩ := parseLines_agree E clock1 clock2 (scan r).lines 0 ⟨[], []⟩ ⟨[], []⟩
    .nil rfl
  unfold ParseJSON
  simp only []
  cases (scan r).err with
  | some err => exact ⟨rfl, h2, rfl⟩
  | none => exact ⟨foldl_analyzeStep_congr _ _ h1 _, h2, rfl⟩

/-! ## `Report` -/

theorem bytesLE_total (a b : Bytes) : bytesLE a b = true ∨ bytesLE b a = true := by
  induction a generalizing b with
  | nil => exact Or.inl (by simp [bytesLE])
  | cons x xs ih =>
    cases b with
    | nil => exact Or.inr (by simp [bytesLE])
    | cons y ys =>
      simp only [bytesLE, Bool.or_eq_true, Bool.and_eq_true, decide_eq_true_eq]
      rcases Nat.lt_trichotomy x.toNat y.toNat with h | h | h
      · exact Or.inl (Or.inl h)
      · rcases ih ys with h2 | h2
        · exact Or.inl (Or.inr ⟨h, h2⟩)
        · exact Or.inr (Or.inr ⟨h.symm, h2⟩)
      · exact Or.inr (Or.inl h)

theorem bytesLE_trans (a b c : Bytes) (h1 : bytesLE a b = true) (h2 : bytesLE b c = true) :
    bytesLE a c = true := by
  induction a generalizing b c with
  | nil => simp [bytesLE]
  | cons x xs ih =>
    cases b with
    | nil => simp [bytesLE] at h1
    | cons y ys =>
      cases c with
      | nil => simp [bytesLE] at h2
      | cons z zs =>
        simp only [bytesLE, Bool.or_eq_true, Bool.and_eq_true, decide_eq_true_eq] at h1 h2 ⊢
        rcases h1 with h1 | ⟨h1, h1'⟩
        · rcases h2 with h2 | ⟨h2, _⟩
          · exact Or.inl (by omega)
          · exact Or.inl (by omega)
        · rcases h2 with h2 | ⟨h2, h2'⟩
          · exact Or.inl (by omega)
          · exact Or.inr ⟨by omega, ih ys zs h1' h2'⟩

instance keyLE.isTotal : IsTotal String keyLE :=
  ⟨fun a b => bytesLE_total (utf8 a) (utf8 b)⟩

instance keyLE.isTrans : IsTrans String keyLE :=
  ⟨fun a b c => bytesLE_trans (utf8 a) (utf8 b) (utf8 c)⟩

theorem sortStrings_perm (keys : List String) : (sortStrings keys).Perm keys :=
  List.perm_insertionSort keyLE keys

theorem Report_eq (m : Metrics) :
    Report m = reportSummary m ++ tableSection levelHeading m.ByLevel
      ++ tableSection actionHeading m.ByAction ++ tableSection sourceHeading m.BySource := by
  unfold Report reportSummary tableSection
  simp only [gt_iff_lt]
  split_ifs <;> simp

theorem mem_printMap (t : StrMap Nat) (line : ReportLine) :
    line ∈ printMap t ↔ ∃ k c, t.get k = some c ∧ line = .item k c := by
  unfold printMap
  simp only [List.mem_map]
  constructor
  · rintro ⟨k, hk, rfl⟩
    have hk2 : k ∈ t.keys := (sortStrings_perm t.keys).mem_iff.mp hk
    cases hg : t.get k with
    | none => exact absurd hk2 ((StrMap.get_eq_none_iff t k).mp hg)
    | some c => exact ⟨k, c, hg, rfl⟩
  · rintro ⟨k, c, hg, rfl⟩
    refine ⟨k, ?_, by rw [hg]; rfl⟩
    apply (sortStrings_perm t.keys).mem_iff.mpr
    by_contra hc
    rw [(StrMap.get_eq_none_iff t k).mpr hc] at hg
    cases hg

theorem log2Floor_spec (fuel n : Nat) (h0 : 0 < n) (hf : n < 2 ^ fuel) :
    2 ^ log2Floor fuel n ≤ n ∧ n < 2 ^ (log2Floor fuel n + 1) := by
  induction fuel generalizing n with
  | zero => simp at hf; omega
  | succ k ih =>
    unfold log2Floor
    split_ifs with h
    · constructor <;> simp <;> omega
    · have h2 : 0 < n / 2 := by omega
      have h3 : n / 2 < 2 ^ k := by
        rw [pow_succ] at hf; omega
      obtain ⟨a, b⟩ := ih (n / 2) h2 h3
      constructor
      · rw [pow_succ]; omega
      · rw [pow_succ]; omega

theorem log2Floor_self (n : Nat) (h0 : 0 < n) :
    2 ^ log2Floor n n ≤ n ∧ n < 2 ^ (log2Floor n n + 1) :=
  log2Floor_spec n n h0 (Nat.lt_two_pow n)

theorem roundHalfEven_bounds (n d : Nat) (hd : 0 < d) :
    2 * (roundHalfEven n d * d) ≤ 2 * n + d ∧ 2 * n ≤ 2 * (roundHalfEven n d * d) + d := by
  have hn : d * (n / d) + n % d = n := Nat.div_add_mod n d
  have hr : n % d < d := Nat.mod_lt n hd
  have hc : n / d * d = d * (n / d) := Nat.mul_comm _ _
  unfold roundHalfEven
  simp only []
  split_ifs with h1 h2 h3
  · omega
  · rw [Nat.add_mul]; omega
  · omega
  · rw [Nat.add_mul]; omega

theorem roundHalfEven_near (n d : Nat) (hd : 0 < d) :
    |(roundHalfEven n d : ℚ) - (n : ℚ) / d| ≤ 1 / 2 := by
  have hdq : (0 : ℚ) < d := by exact_mod_cast hd
  obtain ⟨h1, h2⟩ := roundHalfEven_bounds n d hd
  have h1q : (2 : ℚ) * ((roundHalfEven n d : ℚ) * d) ≤ 2 * n + d := by exact_mod_cast h1
  have h2q : (2 : ℚ) * n ≤ 2 * ((roundHalfEven n d : ℚ) * d) + d := by exact_mod_cast h2
  have hx : (n : ℚ) / d * d = n := div_mul_cancel₀ _ (ne_of_gt hdq)
  generalize (n : ℚ) / d = x at hx
  rw [abs_le]
  constructor
  · apply le_of_mul_le_mul_right _ hdq
    nlinarith
  · apply le_of_mul_le_mul_right _ hdq
    nlinarith

theorem two_pow_toNat (p : Int) (hp : 0 ≤ p) : ((2 ^ p.toNat : Nat) : ℚ) = (2 : ℚ) ^ p := by
  have h : ((p.toNat : Nat) : Int) = p := Int.toNat_of_nonneg hp
  push_cast
  rw [← zpow_natCast, h]

theorem binade_spec (num den : Nat) (hn : 0 < num) (hd : 0 < den) :
    (2 : ℚ) ^ binade num den ≤ (num : ℚ) / den ∧ (num : ℚ) / den < (2 : ℚ) ^ (binade num den + 1) := by
  have hdq : (0 : ℚ) < den := by exact_mod_cast hd
  have hnq : (0 : ℚ) < num := by exact_mod_cast hn
  obtain ⟨a1, a2⟩ := log2Floor_self num hn
  obtain ⟨b1, b2⟩ := log2Floor_self den hd
  unfold binade
  simp only []
  have a1q : (2 : ℚ) ^ (log2Floor num num : Int) ≤ num := by
    rw [zpow_natCast]; exact_mod_cast a1
  have a2q : (num : ℚ) < (2 : ℚ) ^ ((log2Floor num num : Int) + 1) := by
    have : (num : ℚ) < (2 : ℚ) ^ (log2Floor num num + 1) := by exact_mod_cast a2
    rw [← zpow_natCast] at this
    push_cast at this
    exact this
  have b1q : (2 : ℚ) ^ (log2Floor den den : Int) ≤ den := by
    rw [zpow_natCast]; exact_mod_cast b1
  have b2q : (den : ℚ) < (2 : ℚ) ^ ((log2Floor den den : Int) + 1) := by
    have : (den : ℚ) < (2 : ℚ) ^ (log2Floor den den + 1) := by exact_mod_cast b2
    rw [← zpow_natCast] at this
    push_cast at this
    exact this
  have h2 : (2 : ℚ) ≠ 0 := by norm_num
  have hpos : ∀ k : Int, (0 : ℚ) < (2 : ℚ) ^ k := fun k => zpow_pos (by norm_num) k
  generalize (log2Floor num num : Int) = L1 at a1q a2q
  generalize (log2Floor den den : Int) = L2 at b1q b2q
  -- the quotient lies strictly between `2^(e0-1)` and `2^(e0+1)`
  have hlow : (2 : ℚ) ^ (L1 - L2 - 1) < (num : ℚ) / den := by
    rw [lt_div_iff₀ hdq]
    calc (2 : ℚ) ^ (L1 - L2 - 1) * den < (2 : ℚ) ^ (L1 - L2 - 1) * (2 : ℚ) ^ (L2 + 1) :=
          mul_lt_mul_of_pos_left b2q (hpos _)
      _ = (2 : ℚ) ^ L1 := by rw [← zpow_add₀ h2]; congr 1; ring
      _ ≤ num := a1q
  have hhigh : (num : ℚ) / den < (2 : ℚ) ^ (L1 - L2 + 1) := by
    rw [div_lt_iff₀ hdq]
    calc (num : ℚ) < (2 : ℚ) ^ (L1 + 1) := a2q
      _ = (2 : ℚ) ^ (L1 - L2 + 1) * (2 : ℚ) ^ L2 := by rw [← zpow_add₀ h2]; congr 1; ring
      _ ≤ (2 : ℚ) ^ (L1 - L2 + 1) * den := mul_le_mul_of_nonneg_left b1q (le_of_lt (hpos _))
  have hat : ((if 0 ≤ L1 - L2 then decide (2 ^ (L1 - L2).toNat * den ≤ num)
      else decide (den ≤ num * 2 ^ (-(L1 - L2)).toNat)) = true) ↔
      (2 : ℚ) ^ (L1 - L2) ≤ (num : ℚ) / den := by
    rw [le_div_iff₀ hdq]
    split_ifs with h
    · rw [decide_eq_true_iff, ← two_pow_toNat _ h]
      exact_mod_cast Iff.rfl
    · have h' : 0 ≤ -(L1 - L2) := by omega
      rw [decide_eq_true_iff]
      have e : (2 : ℚ) ^ (L1 - L2) = ((2 ^ (-(L1 - L2)).toNat : Nat) : ℚ)⁻¹ := by
        rw [two_pow_toNat _ h', zpow_neg, inv_inv]
      rw [e]
      have hp : (0 : ℚ) < ((2 ^ (-(L1 - L2)).toNat : Nat) : ℚ) := by
        rw [two_pow_toNat _ h']; exact hpos _
      rw [inv_mul_le_iff₀ hp]
      constructor
      · intro hh
        have : (den : ℚ) ≤ ((num * 2 ^ (-(L1 - L2)).toNat : Nat) : ℚ) := by exact_mod_cast hh
        push_cast at this ⊢
        linarith
      · intro hh
        have : (den : ℚ) ≤ ((num * 2 ^ (-(L1 - L2)).toNat : Nat) : ℚ) := by
          push_cast at hh ⊢
          linarith
        exact_mod_cast this
  by_cases hc : (2 : ℚ) ^ (L1 - L2) ≤ (num : ℚ) / den
  · rw [if_pos (hat.mpr hc)]
    exact ⟨hc, hhigh⟩
  · rw [if_neg (fun h => hc (hat.mp h))]
    refine ⟨le_of_lt hlow, ?_⟩
    rw [sub_add_cancel]
    exact lt_of_not_le hc

theorem roundBinary64_eq (num den : Nat) (hn : num ≠ 0) :
    roundBinary64 num den =
      if 0 ≤ max (binade num den - 52) (-1074) ∧
          2 ^ 1024 ≤ (if 0 ≤ max (binade num den - 52) (-1074)
            then roundHalfEven num (den * 2 ^ (max (binade num den - 52) (-1074)).toNat)
            else roundHalfEven (num * 2 ^ (-max (binade num den - 52) (-1074)).toNat) den) *
              2 ^ (max (binade num den - 52) (-1074)).toNat
      then none
      else some (if 0 ≤ max (binade num den - 52) (-1074)
            then roundHalfEven num (den * 2 ^ (max (binade num den - 52) (-1074)).toNat)
            else roundHalfEven (num * 2 ^ (-max (binade num den - 52) (-1074)).toNat) den,
          max (binade num den - 52) (-1074)) := by
  unfold roundBinary64 binade
  rw [if_neg hn]

theorem roundBinary64_near (num den : Nat) (hn : 0 < num) (hd : 0 < den)
    (hlo : 1 / 2 ^ 128 ≤ (num : ℚ) / den) (hhi : (num : ℚ) / den ≤ 2 ^ 128) :
    ∃ m p, roundBinary64 num den = some (m, p) ∧ 0 < m ∧ m ≤ 2 ^ 53 ∧
      |(m : ℚ) * (2 : ℚ) ^ p - (num : ℚ) / den| ≤ (num : ℚ) / den / 2 ^ 53 := by
  have hdq : (0 : ℚ) < den := by exact_mod_cast hd
  have hnq : (0 : ℚ) < num := by exact_mod_cast hn
  have h2 : (2 : ℚ) ≠ 0 := by norm_num
  have hpos : ∀ k : Int, (0 : ℚ) < (2 : ℚ) ^ k := fun k => zpow_pos (by norm_num) k
  obtain ⟨e1, e2⟩ := binade_spec num den hn hd
  rw [roundBinary64_eq num den (by omega)]
  generalize binade num den = e at e1 e2 ⊢
  have hge : -128 ≤ e := by
    have h128 : (2 : ℚ) ^ (-128 : Int) = 1 / 2 ^ 128 := by
      rw [zpow_neg, one_div, zpow_ofNat]
    have : (2 : ℚ) ^ (-128 : Int) < (2 : ℚ) ^ (e + 1) := lt_of_le_of_lt (le_of_eq_of_le h128 hlo) e2
    have := (zpow_lt_zpow_iff_right₀ (by norm_num : (1 : ℚ) < 2)).mp this
    omega
  have hle : e ≤ 128 := by
    have h128 : (2 : ℚ) ^ (128 : Int) = 2 ^ 128 := zpow_ofNat 2 128
    have : (2 : ℚ) ^ e ≤ (2 : ℚ) ^ (128 : Int) := le_trans e1 (le_of_le_of_eq hhi h128.symm)
    exact (zpow_le_zpow_iff_right₀ (by norm_num : (1 : ℚ) < 2)).mp this
  have hp : max (e - 52) (-1074) = e - 52 := by omega
  rw [hp]
  generalize hP : e - 52 = p
  set a : ℚ := (num : ℚ) / den with ha
  -- the significand is within one half of `a / 2^p`
  have hm : ∀ m : Nat, m = (if 0 ≤ p then roundHalfEven num (den * 2 ^ p.toNat)
      else roundHalfEven (num * 2 ^ (-p).toNat) den) → |(m : ℚ) - a / (2 : ℚ) ^ p| ≤ 1 / 2 := by
    intro m hmdef
    split_ifs at hmdef with h
    · have := roundHalfEven_near num (den * 2 ^ p.toNat) (by positivity)
      rw [← hmdef] at this
      have e : ((num : ℚ) / ((den * 2 ^ p.toNat : Nat) : ℚ)) = a / (2 : ℚ) ^ p := by
        rw [Nat.cast_mul, two_pow_toNat _ h, ha, div_div]
      rwa [e] at this
    · have h' : 0 ≤ -p := by omega
      have := roundHalfEven_near (num * 2 ^ (-p).toNat) den hd
      rw [← hmdef] at this
      have e : (((num * 2 ^ (-p).toNat : Nat) : ℚ) / (den : ℚ)) = a / (2 : ℚ) ^ p := by
        rw [Nat.cast_mul, two_pow_toNat _ h', ha, zpow_neg]
        ring
      rwa [e] at this
  generalize hmd : (if 0 ≤ p then roundHalfEven num (den * 2 ^ p.toNat)
      else roundHalfEven (num * 2 ^ (-p).toNat) den) = m
  have hm' := hm m hmd.symm
  have hPe : (2 : ℚ) ^ e = (2 : ℚ) ^ p * 2 ^ 52 := by
    rw [← hP, zpow_sub₀ h2]
    have : (2 : ℚ) ^ (52 : Int) = 2 ^ 52 := by norm_cast
    rw [this]
    field_simp
  have hPe1 : (2 : ℚ) ^ (e + 1) = (2 : ℚ) ^ p * 2 ^ 53 := by
    rw [← hP, show e + 1 = (e - 52) + 53 by ring, zpow_add₀ h2, zpow_ofNat]
  have hPp := hpos p
  have hP3 : a < (2 : ℚ) ^ p * 2 ^ 53 := lt_of_lt_of_eq e2 hPe1
  have hP2 : (2 : ℚ) ^ p * 2 ^ 52 ≤ a := hPe ▸ e1
  have hhi' : a ≤ 2 ^ 128 := hhi
  have ha0 : 0 < a := lt_of_lt_of_le (by positivity) hP2
  rw [abs_le] at hm'
  obtain ⟨m1, m2⟩ := hm'
  have hx : a / (2 : ℚ) ^ p * (2 : ℚ) ^ p = a := div_mul_cancel₀ _ (ne_of_gt hPp)
  have hcast : 0 ≤ p → ((m * 2 ^ p.toNat : Nat) : ℚ) = (m : ℚ) * (2 : ℚ) ^ p := by
    intro h
    rw [Nat.cast_mul, two_pow_toNat _ h]
  generalize a / (2 : ℚ) ^ p = x at hx m1 m2
  have hnear : |(m : ℚ) * (2 : ℚ) ^ p - a| ≤ a / 2 ^ 53 := by
    generalize (2 : ℚ) ^ p = P at hx hPp hP2
    have hd : (m : ℚ) * P - a = ((m : ℚ) - x) * P := by rw [← hx]; ring
    have k1 : ((m : ℚ) - x) * P ≤ P / 2 := by nlinarith
    have k2 : -(P / 2) ≤ ((m : ℚ) - x) * P := by nlinarith
    have k3 : P / 2 ≤ a / 2 ^ 53 := by
      rw [div_le_div_iff₀ (by norm_num) (by norm_num)]
      linarith
    rw [abs_le, hd]
    constructor <;> linarith
  refine ⟨m, p, ?_, ?_, ?_, hnear⟩
  · rw [if_neg]
    rintro ⟨h0, hbig⟩
    have hb : ((2 ^ 1024 : Nat) : ℚ) ≤ ((m * 2 ^ p.toNat : Nat) : ℚ) := Nat.cast_le.mpr hbig
    rw [hcast h0, Nat.cast_pow] at hb
    rw [abs_le] at hnear
    have k4 : a / 2 ^ 53 ≤ a := div_le_self (le_of_lt ha0) (by norm_num)
    have k5 : ((2 : Nat) : ℚ) ^ 129 ≤ ((2 : Nat) : ℚ) ^ 1024 :=
      pow_le_pow_right₀ (by norm_num) (by norm_num)
    have k6 : ((2 : Nat) : ℚ) ^ 129 = 2 * 2 ^ 128 := by norm_num
    linarith [hnear.2]
  · have hx52 : (2 : ℚ) ^ 52 ≤ x := by
      have : (2 : ℚ) ^ p * 2 ^ 52 ≤ x * (2 : ℚ) ^ p := by rw [hx]; exact hP2
      generalize (2 : ℚ) ^ p = P at this hPp
      by_contra hc
      push_neg at hc
      nlinarith
    have : (0 : ℚ) < m := by
      have : (1 : ℚ) ≤ 2 ^ 52 := by norm_num
      linarith
    exact_mod_cast this
  · have hx53 : x < 2 ^ 53 := by
      have : x * (2 : ℚ) ^ p < (2 : ℚ) ^ p * 2 ^ 53 := by rw [hx]; exact hP3
      generalize (2 : ℚ) ^ p = P at this hPp
      by_contra hc
      push_neg at hc
      nlinarith
    have : (m : ℚ) < 2 ^ 53 + 1 := by linarith
    have : m < 2 ^ 53 + 1 := by exact_mod_cast this
    omega

theorem two_pow_quot (k : Int) :
    ((2 ^ k.toNat : Nat) : ℚ) / ((2 ^ (-k).toNat : Nat) : ℚ) = (2 : ℚ) ^ k := by
  rcases le_total 0 k with h | h
  · have h' : (-k).toNat = 0 := by omega
    rw [h', two_pow_toNat _ h]
    simp
  · have h' : k.toNat = 0 := by omega
    have hneg : 0 ≤ -k := by omega
    rw [h', two_pow_toNat _ hneg, zpow_neg]
    simp

theorem float64OfNat_near (n : Nat) (h0 : 0 < n) (h : n < 2 ^ 63) :
    ∃ m p, float64OfNat n = some (m, p) ∧ 0 < m ∧ m ≤ 2 ^ 53 ∧
      |(m : ℚ) * (2 : ℚ) ^ p - (n : ℚ)| ≤ (n : ℚ) / 2 ^ 53 := by
  have h1 : (1 : ℚ) ≤ n := by exact_mod_cast h0
  have h2 : (n : ℚ) < 2 ^ 63 := by exact_mod_cast h
  have := roundBinary64_near n 1 h0 Nat.one_pos
    (by rw [Nat.cast_one, div_one]; exact le_trans (by norm_num) h1)
    (by rw [Nat.cast_one, div_one]; exact le_trans (le_of_lt h2) (by norm_num))
  rw [Nat.cast_one, div_one] at this
  exact this

theorem float64Div_near (ma mb : Nat) (pa pb : Int) (hb : 0 < mb) (ha : 0 < ma)
    (hlo : 1 / 2 ^ 128 ≤ (ma : ℚ) * (2 : ℚ) ^ pa / ((mb : ℚ) * (2 : ℚ) ^ pb))
    (hhi : (ma : ℚ) * (2 : ℚ) ^ pa / ((mb : ℚ) * (2 : ℚ) ^ pb) ≤ 2 ^ 128) :
    ∃ m p, float64Div (some (ma, pa)) (some (mb, pb)) = some (m, p) ∧ 0 < m ∧ m ≤ 2 ^ 53 ∧
      |(m : ℚ) * (2 : ℚ) ^ p - (ma : ℚ) * (2 : ℚ) ^ pa / ((mb : ℚ) * (2 : ℚ) ^ pb)| ≤
        (ma : ℚ) * (2 : ℚ) ^ pa / ((mb : ℚ) * (2 : ℚ) ^ pb) / 2 ^ 53 := by
  have e : (((ma * 2 ^ (pa - pb).toNat : Nat) : ℚ) / ((mb * 2 ^ (pb - pa).toNat : Nat) : ℚ)) =
      (ma : ℚ) * (2 : ℚ) ^ pa / ((mb : ℚ) * (2 : ℚ) ^ pb) := by
    have := two_pow_quot (pa - pb)
    rw [neg_sub] at this
    rw [Nat.cast_mul, Nat.cast_mul, mul_div_mul_comm, this, zpow_sub₀ (by norm_num)]
    ring
  unfold float64Div
  simp only []
  rw [if_neg (by omega)]
  rw [← e] at hlo hhi ⊢
  exact roundBinary64_near _ _ (by positivity) (by positivity) hlo hhi

theorem float64Mul100_near (m0 : Nat) (p0 : Int) (h0 : 0 < m0)
    (hlo : 1 / 2 ^ 128 ≤ (m0 : ℚ) * (2 : ℚ) ^ p0 * 100)
    (hhi : (m0 : ℚ) * (2 : ℚ) ^ p0 * 100 ≤ 2 ^ 128) :
    ∃ m p, float64Mul100 (some (m0, p0)) = some (m, p) ∧ 0 < m ∧ m ≤ 2 ^ 53 ∧
      |(m : ℚ) * (2 : ℚ) ^ p - (m0 : ℚ) * (2 : ℚ) ^ p0 * 100| ≤
        (m0 : ℚ) * (2 : ℚ) ^ p0 * 100 / 2 ^ 53 := by
  have e : (((m0 * 100 * 2 ^ p0.toNat : Nat) : ℚ) / ((2 ^ (-p0).toNat : Nat) : ℚ)) =
      (m0 : ℚ) * (2 : ℚ) ^ p0 * 100 := by
    rw [Nat.cast_mul, mul_div_assoc, two_pow_quot]
    push_cast
    ring
  unfold float64Mul100
  simp only []
  rw [← e] at hlo hhi ⊢
  exact roundBinary64_near _ _ (by positivity) (by positivity) hlo hhi

theorem formatFixed2_near (m : Nat) (p : Int) :
    ∃ n : Nat, formatFixed2 (some (m, p)) =
        formatNat (n / 100) ++ "." ++ formatNat (n % 100 / 10) ++ formatNat (n % 10) ∧
      |(n : ℚ) - (m : ℚ) * (2 : ℚ) ^ p * 100| ≤ 1 / 2 := by
  refine ⟨roundHalfEven (m * 100 * 2 ^ p.toNat) (2 ^ (-p).toNat), rfl, ?_⟩
  have e : (((m * 100 * 2 ^ p.toNat : Nat) : ℚ) / ((2 ^ (-p).toNat : Nat) : ℚ)) =
      (m : ℚ) * (2 : ℚ) ^ p * 100 := by
    rw [Nat.cast_mul, mul_div_assoc, two_pow_quot]
    push_cast
    ring
  rw [← e]
  exact roundHalfEven_near _ _ (by positivity)

theorem float64Div_zero (mb : Nat) (pb : Int) (hb : 0 < mb) :
    float64Div (some (0, 0)) (some (mb, pb)) = some (0, 0) := by
  unfold float64Div
  simp only []
  rw [if_neg (by omega)]
  unfold roundBinary64
  rw [if_pos (by simp)]

theorem errorRate_near (E T : Nat) (hT : 0 < T) (hT2 : T < 2 ^ 63) (hE2 : E < 2 ^ 63) :
    ∃ (mr : Nat) (pr : Int) (n : Nat),
      float64Mul100 (float64Div (float64OfNat E) (float64OfNat T)) = some (mr, pr) ∧
      mr ≤ 2 ^ 53 ∧
      |(mr : ℚ) * (2 : ℚ) ^ pr - (E : ℚ) / T * 100| ≤ (E : ℚ) / T * 100 / 2 ^ 50 ∧
      formatFixed2 (some (mr, pr)) =
        formatNat (n / 100) ++ "." ++ formatNat (n % 100 / 10) ++ formatNat (n % 10) ∧
      |(n : ℚ) / 100 - (mr : ℚ) * (2 : ℚ) ^ pr| ≤ 1 / 200 := by
  obtain ⟨mb, pb, hB, hb0, -, hBn⟩ := float64OfNat_near T hT hT2
  rcases Nat.eq_zero_or_pos E with hE | hE
  · subst hE
    refine ⟨0, 0, 0, ?_, by norm_num, by norm_num, rfl, by norm_num⟩
    have h0 : float64OfNat 0 = some (0, 0) := rfl
    rw [h0, hB, float64Div_zero mb pb hb0]
    rfl
  · obtain ⟨ma, pa, hA, ha0, -, hAn⟩ := float64OfNat_near E hE hE2
    rw [hA, hB]
    have hE1 : (1 : ℚ) ≤ E := by exact_mod_cast hE
    have hT1 : (1 : ℚ) ≤ T := by exact_mod_cast hT
    have hE63 : (E : ℚ) < 2 ^ 63 := by exact_mod_cast hE2
    have hT63 : (T : ℚ) < 2 ^ 63 := by exact_mod_cast hT2
    have hX : (E : ℚ) / T * T = E := div_mul_cancel₀ _ (by positivity)
    have hXlo : 1 / 2 ^ 63 ≤ (E : ℚ) / T :=
      le_trans (one_div_le_one_div_of_le (by positivity) (le_of_lt hT63))
        (div_le_div_of_nonneg_right hE1 (by positivity))
    have hXhi : (E : ℚ) / T ≤ 2 ^ 63 :=
      le_trans (div_le_self (by positivity) hT1) (le_of_lt hE63)
    generalize (E : ℚ) / T = X at hX hXlo hXhi ⊢
    rw [abs_le] at hAn hBn
    have hvT : (0 : ℚ) < (mb : ℚ) * (2 : ℚ) ^ pb := by positivity
    -- the quotient of the two conversions
    have hqhi : (ma : ℚ) * (2 : ℚ) ^ pa / ((mb : ℚ) * (2 : ℚ) ^ pb) ≤ X * (1 + 3 / 2 ^ 53) := by
      rw [div_le_iff₀ hvT]
      calc (ma : ℚ) * (2 : ℚ) ^ pa ≤ E * (1 + 1 / 2 ^ 53) := by linarith [hAn.2]
        _ ≤ E * ((1 + 3 / 2 ^ 53) * (1 - 1 / 2 ^ 53)) :=
            mul_le_mul_of_nonneg_left (by norm_num) (by positivity)
        _ = X * (1 + 3 / 2 ^ 53) * (T * (1 - 1 / 2 ^ 53)) := by rw [← hX]; ring
        _ ≤ X * (1 + 3 / 2 ^ 53) * ((mb : ℚ) * (2 : ℚ) ^ pb) :=
            mul_le_mul_of_nonneg_left (by linarith [hBn.1]) (by positivity)
    have hqlo : X * (1 - 3 / 2 ^ 53) ≤ (ma : ℚ) * (2 : ℚ) ^ pa / ((mb : ℚ) * (2 : ℚ) ^ pb) := by
      rw [le_div_iff₀ hvT]
      calc X * (1 - 3 / 2 ^ 53) * ((mb : ℚ) * (2 : ℚ) ^ pb)
          ≤ X * (1 - 3 / 2 ^ 53) * (T * (1 + 1 / 2 ^ 53)) :=
            mul_le_mul_of_nonneg_left (by linarith [hBn.2])
              (mul_nonneg (by positivity) (by norm_num))
        _ = E * ((1 - 3 / 2 ^ 53) * (1 + 1 / 2 ^ 53)) := by rw [← hX]; ring
        _ ≤ E * (1 - 1 / 2 ^ 53) := mul_le_mul_of_nonneg_left (by norm_num) (by positivity)
        _ ≤ (ma : ℚ) * (2 : ℚ) ^ pa := by linarith [hAn.1]
    obtain ⟨m3, p3, h3, h30, -, h3n⟩ := float64Div_near ma mb pa pb hb0 ha0
      (by linarith) (by linarith)
    rw [h3]
    generalize (ma : ℚ) * (2 : ℚ) ^ pa / ((mb : ℚ) * (2 : ℚ) ^ pb) = q at hqhi hqlo h3n
    rw [abs_le] at h3n
    obtain ⟨m4, p4, h4, -, h453, h4n⟩ := float64Mul100_near m3 p3 h30
      (by linarith [h3n.1]) (by linarith [h3n.2])
    rw [h4]
    rw [abs_le] at h4n
    obtain ⟨n, hn, hnn⟩ := formatFixed2_near m4 p4
    refine ⟨m4, p4, n, rfl, h453, ?_, hn, ?_⟩
    · rw [abs_le]
      generalize (m3 : ℚ) * (2 : ℚ) ^ p3 = v3 at h3n h4n
      generalize (m4 : ℚ) * (2 : ℚ) ^ p4 = v4 at h4n
      constructor <;> linarith [h3n.1, h3n.2, h4n.1, h4n.2]
    · rw [abs_le] at hnn ⊢
      constructor <;> linarith [hnn.1, hnn.2]

theorem errorRate_shown (v X : ℚ) (n : Nat)
    (hv : |v - X| ≤ X / 2 ^ 50) (hn : |(n : ℚ) / 100 - v| ≤ 1 / 200) :
    |(n : ℚ) / 100 - X| ≤ 1 / 200 + X / 2 ^ 50 := by
  rw [abs_le] at *
  constructor <;> linarith [hv.1, hv.2, hn.1, hn.2]

theorem errorRate_exact (E T n k : Nat) (hT : 0 < T)
    (hn : |(n : ℚ) / 100 - (E : ℚ) / T * 100| ≤ 1 / 200 + (E : ℚ) / T * 100 / 2 ^ 50)
    (hk : 10000 * E = k * T) (hk2 : k < 2 ^ 49) : n = k := by
  have hTq : (0 : ℚ) < T := by exact_mod_cast hT
  have hkq : (10000 : ℚ) * E = k * T := by exact_mod_cast hk
  have hX : (E : ℚ) / T * 100 = k / 100 := by
    rw [div_mul_eq_mul_div, div_eq_div_iff (ne_of_gt hTq) (by norm_num)]
    linarith
  have hk49 : (k : ℚ) < 2 ^ 49 := by exact_mod_cast hk2
  rw [hX, abs_le] at hn
  by_contra hne
  rcases Nat.lt_or_gt_of_ne hne with h | h
  · have : (n : ℚ) + 1 ≤ k := by exact_mod_cast h
    linarith [hn.1]
  · have : (k : ℚ) + 1 ≤ n := by exact_mod_cast h
    linarith [hn.2]

/-- C16: `Report` prints the error-rate line if and only if `Total > 0`; it is
then the fifth line, and the rate it shows, with two fraction digits, is
`float64(Errors) / float64(Total) * 100`. For counts in the range of an `int`
that rate is a finite `float64`, of a significand of at most 53 bits, within
a relative `2^-50` of the exact `Errors / Total * 100`, and the digits printed
are those of a number `n` of hundredths within half a hundredth of the rate:
the line differs from the exact rate by at most `1/200` plus that rounding,
and when the exact rate is itself a number `k` of hundredths, the line shows
exactly `k`. Four entries with levels `error`, `ERROR`, `warn`, `info` give
`Errors == 2`, `Total == 4` and the line `错误率: 50.00%`; one error in three
entries is shown as `33.33`, the rate being `4691249611844266 * 2^-47`, two in
three as `66.67`, one in eight as `12.50`, 2469 in 20000 as `12.35`, none in
seven as `0.00`, seven in seven as `100.00`; for `Total == 0` there is no such
line. -/
theorem Report_error_rate (m : Metrics) :
    ((∃ rate, ReportLine.errorRate rate ∈ Report m) ↔ 0 < m.Total) ∧
    (0 < m.Total → (Report m).take 5 =
      [.title, .total m.Total, .activeUsers m.UserSet.len, .errors m.Errors,
       .errorRate (float64Mul100 (float64Div (float64OfNat m.Errors) (float64OfNat m.Total)))]) ∧
    (∀ rate, (ReportLine.errorRate rate).text = "错误率: " ++ formatFixed2 rate ++ "%\n") ∧
    (0 < m.Total → m.Total < 2 ^ 63 → m.Errors < 2 ^ 63 → ∃ (mr : Nat) (pr : Int) (n : Nat),
      float64Mul100 (float64Div (float64OfNat m.Errors) (float64OfNat m.Total)) = some (mr, pr) ∧
      mr ≤ 2 ^ 53 ∧
      |(mr : ℚ) * (2 : ℚ) ^ pr - (m.Errors : ℚ) / m.Total * 100| ≤
        (m.Errors : ℚ) / m.Total * 100 / 2 ^ 50 ∧
      |(n : ℚ) / 100 - (mr : ℚ) * (2 : ℚ) ^ pr| ≤ 1 / 200 ∧
      ((Report m).map ReportLine.text).get? 4 = some ("错误率: " ++
        (formatNat (n / 100) ++ "." ++ formatNat (n % 100 / 10) ++ formatNat (n % 10)) ++ "%\n") ∧
      |(n : ℚ) / 100 - (m.Errors : ℚ) / m.Total * 100| ≤
        1 / 200 + (m.Errors : ℚ) / m.Total * 100 / 2 ^ 50 ∧
      ∀ k : Nat, 10000 * m.Errors = k * m.Total → k < 2 ^ 49 → n = k) ∧
    (Analyze [sampleEntry "error" "", sampleEntry "ERROR" "", sampleEntry "warn" "",
        sampleEntry "info" ""]).Errors = 2 ∧
    (Analyze [sampleEntry "error" "", sampleEntry "ERROR" "", sampleEntry "warn" "",
        sampleEntry "info" ""]).Total = 4 ∧
    ((Report (Analyze [sampleEntry "error" "", sampleEntry "ERROR" "", sampleEntry "warn" "",
        sampleEntry "info" ""])).map ReportLine.text).get? 4 = some "错误率: 50.00%\n" ∧
    ((Report (Analyze [sampleEntry "error" "", sampleEntry "info" "",
        sampleEntry "info" ""])).map ReportLine.text).get? 4 = some "错误率: 33.33%\n" ∧
    ((Report (Analyze [sampleEntry "error" "", sampleEntry "info" "",
        sampleEntry "error" ""])).map ReportLine.text).get? 4 = some "错误率: 66.67%\n" ∧
    float64Div (float64OfNat 1) (float64OfNat 3) = some (6004799503160661, -54) ∧
    float64Mul100 (float64Div (float64OfNat 1) (float64OfNat 3)) = some (4691249611844266, -47) ∧
    formatFixed2 (float64Mul100 (float64Div (float64OfNat 1) (float64OfNat 8))) = "12.50" ∧
    formatFixed2 (float64Mul100 (float64Div (float64OfNat 2469) (float64OfNat 20000))) = "12.35" ∧
    formatFixed2 (float64Mul100 (float64Div (float64OfNat 0) (float64OfNat 7))) = "0.00" ∧
    formatFixed2 (float64Mul100 (float64Div (float64OfNat 7) (float64OfNat 7))) = "100.00" ∧
    Report (Analyze []) = [.title, .total 0, .activeUsers 0, .errors 0] := by
  have hnot : ∀ (rate : Float64) (h : String) (t : StrMap Nat),
      ReportLine.errorRate rate ∉ tableSection h t := by
    intro rate h t hc
    unfold tableSection at hc
    split_ifs at hc
    · simp only [List.mem_cons, mem_printMap] at hc
      rcases hc with hc | ⟨k, c, _, hc⟩ <;> cases hc
    · simp at hc
  refine ⟨?_, ?_, fun _ => rfl, ?_, by decide, by decide, by decide, by decide, by decide,
    by decide, by decide, by decide, by decide, by decide, by decide, by decide⟩
  · rw [Report_eq]
    simp only [List.mem_append, hnot, or_false]
    unfold reportSummary
    split_ifs with h
    · simp [h]
    · simp [h]
  · intro h
    rw [Report_eq]
    unfold reportSummary
    rw [if_pos h]
    rfl
  · intro h hT hE
    obtain ⟨mr, pr, n, hr, h53, hv, hn, hnv⟩ := errorRate_near m.Errors m.Total h hT hE
    have hb := errorRate_shown _ _ n hv hnv
    refine ⟨mr, pr, n, hr, h53, hv, hnv, ?_, hb,
      fun k hk hk2 => errorRate_exact m.Errors m.Total n k h hb hk hk2⟩
    rw [Report_eq]
    unfold reportSummary
    rw [if_pos h, hr, ← hn]
    rfl

end LogAnalyze
